import Mathlib

/-!
Verification development for the profanitybuster matching core.

The TypeScript sources are embedded shallowly:

* JavaScript strings are modelled as `List Char` (`Str`).  All inputs that
  appear in the concrete theorems below lie in the Basic Multilingual Plane,
  where one UTF-16 code unit is one code point, so indexing by list position
  agrees with the `text[i]` indexing used by the sources.
* JavaScript `Map` and `Set` are modelled as association lists / lists that
  preserve insertion order, mirroring the iteration-order guarantees of the
  JavaScript collections.
* The JavaScript built-ins `String.prototype.toLowerCase` and
  `String.prototype.normalize('NFKD')` are modelled per code point by the
  tables `jsLowerChar` and `nfkdChar`; the tables carry exactly the Unicode
  mappings for the code points exercised by the theorems (verified against
  the Unicode character database) and are the identity elsewhere.
* Loops become structural recursions; the two loops in the Aho–Corasick
  automaton whose termination rests on semantic invariants (the breadth-first
  build queue and the failure-link walk) take an explicit fuel argument that
  is always instantiated large enough for the runs appearing below.
-/

/-- JavaScript strings as lists of BMP code units. -/
abbrev Str := List Char

/-- Model of the JavaScript regex `/[\p{L}\p{N}_]/u` (`WORD_CHAR` in
`core/trie.ts`, `core/aho.ts` and `index.ts`), restricted to the ASCII and
Latin-1 ranges exercised here; combining marks, spaces and punctuation are
not word characters, in agreement with the Unicode properties. -/
def isWordChar (c : Char) : Bool :=
  (('a' ≤ c && c ≤ 'z') || ('A' ≤ c && c ≤ 'Z') || ('0' ≤ c && c ≤ '9')
    || c = '_'
    || ((Char.ofNat 0xC0 ≤ c && c ≤ Char.ofNat 0xF6) && c ≠ Char.ofNat 0xD7)
    || (Char.ofNat 0xF8 ≤ c && c ≤ Char.ofNat 0xFF))

/-- The `CONFUSABLE_MAP` table of `core/normalization.ts`. -/
def confusableMap (c : Char) : Option Char :=
  if c = '0' then some 'o'
  else if c = '1' then some 'i'
  else if c = '3' then some 'e'
  else if c = '4' then some 'a'
  else if c = '5' then some 's'
  else if c = '7' then some 't'
  else if c = '8' then some 'b'
  else if c = '@' then some 'a'
  else if c = '$' then some 's'
  else if c = '!' then some 'i'
  else if c = '|' then some 'i'
  else if c = Char.ofNat 0x20AC then some 'e'
  else if c = Char.ofNat 0xA3 then some 'l'
  else if c = Char.ofNat 0xA2 then some 'c'
  else if c = Char.ofNat 0xA7 then some 's'
  else none

/-- The combining-mark range `U+0300 – U+036F` matched by
`COMBINING_MARKS_REGEX` in `core/normalization.ts`. -/
def isCombiningMark (c : Char) : Bool :=
  Char.ofNat 0x300 ≤ c && c ≤ Char.ofNat 0x36F

/-- The invisible code points stripped by `normalizeForDetection`:
zero-width space U+200B, non-joiner U+200C, joiner U+200D, BOM U+FEFF,
soft hyphen U+00AD. -/
def isInvisibleChar (c : Char) : Bool :=
  c = Char.ofNat 0x200B || c = Char.ofNat 0x200C || c = Char.ofNat 0x200D
    || c = Char.ofNat 0xFEFF || c = Char.ofNat 0xAD

/-- Model of `String.prototype.toLowerCase` per code point.  It carries the
ASCII and Latin-1 simple mappings together with the one full (expanding)
mapping exercised below, U+0130 LATIN CAPITAL LETTER I WITH DOT ABOVE →
"i" + U+0307, as specified by Unicode SpecialCasing and implemented by
JavaScript engines; every other code point is left unchanged. -/
def jsLowerChar (c : Char) : List Char :=
  if c = Char.ofNat 0x130 then ['i', Char.ofNat 0x307]
  else if 'A' ≤ c && c ≤ 'Z' then [Char.ofNat (c.toNat + 32)]
  else if ((Char.ofNat 0xC0 ≤ c && c ≤ Char.ofNat 0xDE) && c ≠ Char.ofNat 0xD7)
  then [Char.ofNat (c.toNat + 32)]
  else [c]

/-- Model of `String.prototype.toLowerCase` on whole strings. -/
def jsLower (s : Str) : Str :=
  s.flatMap jsLowerChar

/-- Model of single-code-point `normalize('NFKD')`.  The table carries the
decompositions of the code points exercised below (verified against the
Unicode character database): the fixed-width space characters U+2000–U+200A
decompose (transitively) to U+0020, some Latin-1 accented letters decompose
to a base letter plus a combining mark, the ﬁ ligature U+FB01 decomposes to
"fi", U+0130 to "I" + U+0307.  All other code points (including lone
combining marks, which have no decomposition) map to themselves. -/
def nfkdChar (c : Char) : List Char :=
  if Char.ofNat 0x2000 ≤ c && c ≤ Char.ofNat 0x200A then [' ']
  else if c = Char.ofNat 0xE9 then ['e', Char.ofNat 0x301]
  else if c = Char.ofNat 0xE8 then ['e', Char.ofNat 0x300]
  else if c = Char.ofNat 0xE1 then ['a', Char.ofNat 0x301]
  else if c = Char.ofNat 0xE0 then ['a', Char.ofNat 0x300]
  else if c = Char.ofNat 0xFC then ['u', Char.ofNat 0x308]
  else if c = Char.ofNat 0xF6 then ['o', Char.ofNat 0x308]
  else if c = Char.ofNat 0xF1 then ['n', Char.ofNat 0x303]
  else if c = Char.ofNat 0xE7 then ['c', Char.ofNat 0x327]
  else if c = Char.ofNat 0xFB01 then ['f', 'i']
  else if c = Char.ofNat 0x130 then ['I', Char.ofNat 0x307]
  else [c]

/-- Model of whole-string `normalize('NFKD')`. -/
def nfkdString (s : Str) : Str :=
  s.flatMap nfkdChar

/-- Model of whole-string `normalize('NFKC')`.  This branch of
`normalizeForDetection` only runs when `useNFKC` is set together with
`lengthPreserving = false`; no theorem below exercises it, so the model uses
the compatibility decomposition without recomposition. -/
def nfkcString (s : Str) : Str :=
  s.flatMap nfkdChar

/-- The `NormalizationOptions` interface of `core/normalization.ts`; the
optional TypeScript fields become `Option Bool` and are read with the same
`?? default` fallbacks as the source. -/
structure NormalizationOptions where
  caseSensitive : Bool
  confusableMapping : Bool
  stripDiacritics : Option Bool := none
  useNFKC : Option Bool := none
  lengthPreserving : Option Bool := none
  stripInvisible : Option Bool := none
deriving Repr, DecidableEq

/-- One iteration of the per-character loop of `normalizeForDetection`
(lines 196–236 of `core/normalization.ts`).  The result is the list of code
units appended to the output for this input character (empty when an
invisible character is dropped in non-length-preserving mode). -/
def normalizeCharStep (stripDiacritics confusableMapping lengthPreserving
    stripInvisible : Bool) (c : Char) : List Char :=
  let invisible := stripInvisible && isInvisibleChar c
  if invisible && !lengthPreserving then
    []
  else
    let ch : List Char := if invisible then [' '] else [c]
    let ch : List Char :=
      if stripDiacritics then
        let decomposed := ch.flatMap nfkdChar
        let base := decomposed.filter (fun d => !isCombiningMark d)
        if lengthPreserving then
          match base.head? with
          | some b => [b]
          | none => ch
        else base
      else ch
    let ch : List Char :=
      if confusableMapping && ch.length == 1 then
        match ch.head? with
        | some b =>
          match confusableMap b with
          | some m => [m]
          | none => ch
        | none => ch
      else ch
    ch

/-- `normalizeForDetection` of `core/normalization.ts`. -/
def normalizeForDetection (input : Str) (options : NormalizationOptions) : Str :=
  let caseSensitive := options.caseSensitive
  let confusableMapping := options.confusableMapping
  let stripDiacritics := options.stripDiacritics.getD true
  let useNFKC := options.useNFKC.getD false
  let lengthPreserving := options.lengthPreserving.getD true
  let stripInvisible := options.stripInvisible.getD true
  let text := if caseSensitive then input else jsLower input
  let text := if useNFKC && !lengthPreserving then nfkcString text else text
  if stripDiacritics || confusableMapping || (useNFKC && lengthPreserving)
      || stripInvisible then
    text.flatMap
      (normalizeCharStep stripDiacritics confusableMapping lengthPreserving
        stripInvisible)
  else text

/-- `normalizeWord` of `core/normalization.ts`. -/
def normalizeWord (input : Str) (options : NormalizationOptions) : Str :=
  normalizeForDetection input options

/-! ### The trie matcher (`src/core/trie.ts`) -/

/-- A `TrieMatch` of `core/trie.ts`. -/
structure TrieMatch where
  index : Nat
  length : Nat
deriving Repr, DecidableEq

/-- A `TrieNode` of `core/trie.ts`: children keyed by characters in map
insertion order, plus the terminal flag. -/
inductive TrieNode where
  | mk : List (Char × TrieNode) → Bool → TrieNode
deriving Repr

/-- The `children` field of a trie node. -/
def TrieNode.children : TrieNode → List (Char × TrieNode)
  | .mk cs _ => cs

/-- The `isTerminal` field of a trie node. -/
def TrieNode.isTerminal : TrieNode → Bool
  | .mk _ b => b

/-- The empty trie node (`{ children: new Map(), isTerminal: false }`). -/
def TrieNode.empty : TrieNode := .mk [] false

/-- Association-list lookup modelling `Map.prototype.get`. -/
def jsMapGet {κ β : Type} [DecidableEq κ] (cs : List (κ × β)) (k : κ) :
    Option β :=
  match cs with
  | [] => none
  | (k0, v0) :: rest => if k0 = k then some v0 else jsMapGet rest k

/-- Association-list update modelling `Map.prototype.set`: an existing key
keeps its position, a new key is appended. -/
def jsMapSet {κ β : Type} [DecidableEq κ] (cs : List (κ × β)) (k : κ)
    (v : β) : List (κ × β) :=
  match cs with
  | [] => [(k, v)]
  | (k0, v0) :: rest =>
    if k0 = k then (k, v) :: rest else (k0, v0) :: jsMapSet rest k v

/-- Association-list deletion modelling `Map.prototype.delete`. -/
def jsMapDelete {κ β : Type} [DecidableEq κ] (cs : List (κ × β)) (k : κ) :
    List (κ × β) :=
  match cs with
  | [] => []
  | (k0, v0) :: rest =>
    if k0 = k then rest else (k0, v0) :: jsMapDelete rest k

/-- Insertion-ordered addition modelling `Set.prototype.add`. -/
def jsSetAdd {α : Type} [DecidableEq α] (l : List α) (a : α) : List α :=
  if a ∈ l then l else l ++ [a]

/-- Lookup in children, as `node.children.get(ch)` in `core/trie.ts`. -/
def childGet (cs : List (Char × TrieNode)) (c : Char) : Option TrieNode :=
  jsMapGet cs c

/-- Update of children, as `node.children.set(ch, next)` in `core/trie.ts`. -/
def childSet (cs : List (Char × TrieNode)) (c : Char) (n : TrieNode) :
    List (Char × TrieNode) :=
  jsMapSet cs c n

/-- The char-by-char walk of `Trie.insert`: advance through existing
children, create missing ones, and mark the final node terminal. -/
def TrieNode.insertGo : TrieNode → Str → TrieNode
  | node, [] => .mk node.children true
  | node, c :: cs =>
    let child := match childGet node.children c with
      | some n => n
      | none => TrieNode.empty
    .mk (childSet node.children c (child.insertGo cs)) node.isTerminal

/-- `Trie.insert` of `core/trie.ts`; the empty word is a no-op
(`if (!word) return`). -/
def TrieNode.insert (node : TrieNode) (word : Str) : TrieNode :=
  match word with
  | [] => node
  | _ :: _ => node.insertGo word

/-- `Trie.insertAll` of `core/trie.ts`. -/
def TrieNode.insertAll (node : TrieNode) (words : List Str) : TrieNode :=
  words.foldl TrieNode.insert node

/-- The inner `while` loop of `Trie.findAllMatches` (lines 55–78): walk from
the node at text position `j` with the remaining suffix `rest`, skipping
separators, tracking `lastTerminalEndIndex` (as an `Int`, `-1` meaning
none), honouring the whole-word right-boundary check. -/
def trieWalk (text : Str) (whole : Bool) (ignoreSeps : Bool)
    (seps : List Char) : TrieNode → Nat → Str → Int → Int
  | _, _, [], last => last
  | node, j, ch :: rest, last =>
    if ignoreSeps && ch ∈ seps then
      trieWalk text whole ignoreSeps seps node (j + 1) rest last
    else
      match childGet node.children ch with
      | none => last
      | some next =>
        let last :=
          if next.isTerminal then
            if whole then
              if j + 1 < text.length && isWordChar (text.getD (j + 1) ' ') then
                last
              else (j : Int)
            else (j : Int)
          else last
        trieWalk text whole ignoreSeps seps next (j + 1) rest last

/-- The outer `for` loop of `Trie.findAllMatches`: try every start position
(the remaining suffix `ch :: rest` is `text.drop start`). -/
def trieScan (root : TrieNode) (text : Str) (whole : Bool)
    (ignoreSeps : Bool) (seps : List Char) : Str → Nat → List TrieMatch
  | [], _ => []
  | ch :: rest, start =>
    let tail := trieScan root text whole ignoreSeps seps rest (start + 1)
    if ignoreSeps && ch ∈ seps then tail
    else if whole && decide (0 < start)
        && isWordChar (text.getD (start - 1) ' ') then tail
    else
      let last := trieWalk text whole ignoreSeps seps root start
        (ch :: rest) (-1)
      if last ≠ -1 then
        { index := start, length := (last - start + 1).toNat } :: tail
      else tail

/-- `Trie.findAllMatches` of `core/trie.ts`. -/
def TrieNode.findAllMatches (root : TrieNode) (text : Str) (whole : Bool)
    (seps : List Char) : List TrieMatch :=
  trieScan root text whole (decide (seps ≠ [])) seps text 0

/-- Structural dominance of tries: `TrieSub t u` says every terminal and
every child edge of `t` is present in `u` (recursively).  Inserting words
into a trie produces a dominating trie, and a dominating trie finds a match
wherever the dominated one does; this is the shape of the monotonicity
argument for word addition. -/
inductive TrieSub : TrieNode → TrieNode → Prop where
  | intro {t u : TrieNode} :
      (t.isTerminal = true → u.isTerminal = true) →
      (∀ c n, childGet t.children c = some n →
        (childGet u.children c).isSome = true) →
      (∀ c n m, childGet t.children c = some n →
        childGet u.children c = some m → TrieSub n m) →
      TrieSub t u

/-! ### The Aho–Corasick matcher (`src/core/aho.ts`) -/

/-- An `AhoMatch` of `core/aho.ts`. -/
structure AhoMatch where
  index : Nat
  length : Nat
deriving Repr, DecidableEq

/-- An `AhoNode` of `core/aho.ts`: children map character to node index. -/
structure AhoNode where
  children : List (Char × Nat)
  fail : Nat
  terminalLengths : List Nat
deriving Repr, DecidableEq

/-- A fresh automaton node (`{ children: new Map(), fail: 0,
terminalLengths: [] }`). -/
def AhoNode.empty : AhoNode := { children := [], fail := 0, terminalLengths := [] }

/-- The automaton: a growable array of nodes, index 0 being the root. -/
structure AhoCorasick where
  nodes : List AhoNode
deriving Repr, DecidableEq

/-- The freshly constructed automaton (constructor of `AhoCorasick`). -/
def AhoCorasick.mkEmpty : AhoCorasick := ⟨[AhoNode.empty]⟩

/-- Array access `this.nodes[i]` (always in bounds in the source). -/
def acGet (nodes : List AhoNode) (i : Nat) : AhoNode :=
  nodes.getD i AhoNode.empty

/-- The char-by-char walk of `AhoCorasick.insert`, threading the node array
and the current node index; `len` is the full word length pushed at the
terminal node. -/
def acInsertGo (len : Nat) : List AhoNode → Nat → Str → List AhoNode
  | nodes, idx, [] =>
    let node := acGet nodes idx
    nodes.set idx { node with terminalLengths := node.terminalLengths ++ [len] }
  | nodes, idx, c :: cs =>
    let node := acGet nodes idx
    match jsMapGet node.children c with
    | some next => acInsertGo len nodes next cs
    | none =>
      let next := nodes.length
      let nodes := nodes.set idx { node with children := jsMapSet node.children c next }
      let nodes := nodes ++ [AhoNode.empty]
      acInsertGo len nodes next cs

/-- `AhoCorasick.insert`; the empty word is a no-op (`if (!word) return`). -/
def AhoCorasick.insert (ac : AhoCorasick) (word : Str) : AhoCorasick :=
  match word with
  | [] => ac
  | _ :: _ => ⟨acInsertGo word.length ac.nodes 0 word⟩

/-- `AhoCorasick.insertAll`. -/
def AhoCorasick.insertAll (ac : AhoCorasick) (words : List Str) : AhoCorasick :=
  words.foldl AhoCorasick.insert ac

/-- The failure-link walk `while (f !== 0 && !this.nodes[f].children.has(ch))
f = this.nodes[f].fail`, with fuel (instantiated with the node count, which
bounds the walk length on every automaton produced by `build`). -/
def acFailWalk (nodes : List AhoNode) (c : Char) : Nat → Nat → Nat
  | 0, f => f
  | fuel + 1, f =>
    if f ≠ 0 && (jsMapGet (acGet nodes f).children c).isNone then
      acFailWalk nodes c fuel (acGet nodes f).fail
    else f

/-- Processing of one child edge inside the BFS loop of `AhoCorasick.build`
(lines 61–77 of `core/aho.ts`): push the child on the queue, resolve its
failure link, and inherit the failure target's terminal lengths. -/
def acProcessChild (current : Nat) (st : List AhoNode × List Nat)
    (edge : Char × Nat) : List AhoNode × List Nat :=
  let nodes := st.1
  let queue := st.2 ++ [edge.2]
  let ch := edge.1
  let nextIndex := edge.2
  let f := acFailWalk nodes ch nodes.length (acGet nodes current).fail
  let f := match jsMapGet (acGet nodes f).children ch with
    | some g => if jsMapGet (acGet nodes 0).children ch ≠ some nextIndex then g else f
    | none => f
  let nodes := nodes.set nextIndex { acGet nodes nextIndex with fail := f }
  let inherited := (acGet nodes f).terminalLengths
  let nodes :=
    if inherited.length > 0 then
      nodes.set nextIndex
        { acGet nodes nextIndex with
          terminalLengths := (acGet nodes nextIndex).terminalLengths ++ inherited }
    else nodes
  (nodes, queue)

/-- The BFS loop of `AhoCorasick.build`, with fuel (instantiated with the
node count: every non-root node is enqueued exactly once). -/
def acBuildLoop : Nat → List AhoNode → List Nat → List AhoNode
  | 0, nodes, _ => nodes
  | _, nodes, [] => nodes
  | fuel + 1, nodes, current :: queueRest =>
    let st := ((acGet nodes current).children).foldl (acProcessChild current)
      (nodes, [])
    acBuildLoop fuel st.1 (queueRest ++ st.2)

/-- `AhoCorasick.build` of `core/aho.ts`. -/
def AhoCorasick.build (ac : AhoCorasick) : AhoCorasick :=
  let rootChildren := (acGet ac.nodes 0).children
  let nodes := rootChildren.foldl
    (fun ns p => ns.set p.2 { acGet ns p.2 with fail := 0 }) ac.nodes
  ⟨acBuildLoop ac.nodes.length nodes (rootChildren.map Prod.snd)⟩

/-- One position of the search loop of `AhoCorasick.findAllMatches`: the
emitted matches for the outputs of `state` at compact position `i`. -/
def acEmit (nodes : List AhoNode) (text : Str) (whole : Bool)
    (useIgnore : Bool) (indexMap : List Nat) (i : Nat) (state : Nat) :
    List AhoMatch :=
  (acGet nodes state).terminalLengths.filterMap (fun len =>
    let startCompact : Int := (i : Int) - (len : Int) + 1
    if startCompact < 0 then none
    else
      let sc := startCompact.toNat
      let startOriginal := if useIgnore then indexMap.getD sc 0 else sc
      let endOriginal := if useIgnore then indexMap.getD i 0 else i
      let leftOk := startOriginal = 0 ∨ ¬ isWordChar (text.getD (startOriginal - 1) ' ')
      let rightOk := endOriginal + 1 ≥ text.length ∨ ¬ isWordChar (text.getD (endOriginal + 1) ' ')
      if whole && !(decide leftOk && decide rightOk) then none
      else some { index := startOriginal, length := endOriginal - startOriginal + 1 })

/-- The search loop of `AhoCorasick.findAllMatches` over the (possibly
compacted) scan text, threading the automaton state. -/
def acRunGo (nodes : List AhoNode) (text : Str) (whole : Bool)
    (useIgnore : Bool) (indexMap : List Nat) :
    List Char → Nat → Nat → List AhoMatch
  | [], _, _ => []
  | ch :: rest, i, state =>
    let state := acFailWalk nodes ch nodes.length state
    let state := match jsMapGet (acGet nodes state).children ch with
      | some next => next
      | none => state
    acEmit nodes text whole useIgnore indexMap i state
      ++ acRunGo nodes text whole useIgnore indexMap rest (i + 1) state

/-- `AhoCorasick.findAllMatches` of `core/aho.ts`: compact the text by
dropping separators (recording the original positions) and run the
automaton, translating spans back to original indices. -/
def AhoCorasick.findAllMatches (ac : AhoCorasick) (text : Str) (whole : Bool)
    (seps : List Char) : List AhoMatch :=
  if seps ≠ [] then
    let pairs := text.enum.filter (fun p => p.2 ∉ seps)
    acRunGo ac.nodes text whole true (pairs.map Prod.fst) (pairs.map Prod.snd)
      0 0
  else
    acRunGo ac.nodes text whole false [] text 0 0

/-! ### The phrase trie (`src/core/phraseTrie.ts`) -/

/-- A `PhraseMatchTokenSpan` of `core/phraseTrie.ts` (end inclusive). -/
structure PhraseSpan where
  startTokenIndex : Nat
  endTokenIndex : Nat
deriving Repr, DecidableEq

/-- A `PhraseTrieNode`: children keyed by whole tokens. -/
inductive PhraseNode where
  | mk : List (Str × PhraseNode) → Bool → PhraseNode
deriving Repr

/-- The `children` field of a phrase-trie node. -/
def PhraseNode.children : PhraseNode → List (Str × PhraseNode)
  | .mk cs _ => cs

/-- The `isTerminal` field of a phrase-trie node. -/
def PhraseNode.isTerminal : PhraseNode → Bool
  | .mk _ b => b

/-- The empty phrase-trie node. -/
def PhraseNode.empty : PhraseNode := .mk [] false

/-- The token-by-token walk of `PhraseTrie.insert`. -/
def PhraseNode.insertGo : PhraseNode → List Str → PhraseNode
  | node, [] => .mk node.children true
  | node, t :: ts =>
    let child := match jsMapGet node.children t with
      | some n => n
      | none => PhraseNode.empty
    .mk (jsMapSet node.children t (child.insertGo ts)) node.isTerminal

/-- `PhraseTrie.insert`; an empty token list is a no-op. -/
def PhraseNode.insert (node : PhraseNode) (tokens : List Str) : PhraseNode :=
  match tokens with
  | [] => node
  | _ :: _ => node.insertGo tokens

/-- `PhraseTrie.insertAll`. -/
def PhraseNode.insertAll (node : PhraseNode) (phrases : List (List Str)) :
    PhraseNode :=
  phrases.foldl PhraseNode.insert node

/-- The inner loop of `PhraseTrie.findAllMatchesForTokens` from one start
token: returns the end token index of the first terminal reached, consuming
stop words as skips.  The remaining token suffix begins at token index `i`. -/
def phraseWalk (stops : List Str) (hasStop : Bool) (maxSkips : Int) :
    PhraseNode → List Str → Int → Nat → Option Nat
  | _, [], _, _ => none
  | node, t :: rest, skips, i =>
    match jsMapGet node.children t with
    | some next =>
      if next.isTerminal then some i
      else phraseWalk stops hasStop maxSkips next rest skips (i + 1)
    | none =>
      if hasStop && t ∈ stops && skips < maxSkips then
        phraseWalk stops hasStop maxSkips node rest (skips + 1) (i + 1)
      else none

/-- The outer loop of `PhraseTrie.findAllMatchesForTokens`: one attempt per
start token (the suffix `t :: rest` is `tokens.drop start`). -/
def phraseScan (root : PhraseNode) (stops : List Str) (hasStop : Bool)
    (maxSkips : Int) : List Str → Nat → List PhraseSpan
  | [], _ => []
  | t :: rest, start =>
    let tail := phraseScan root stops hasStop maxSkips rest (start + 1)
    match phraseWalk stops hasStop maxSkips root (t :: rest) 0 start with
    | some e => { startTokenIndex := start, endTokenIndex := e } :: tail
    | none => tail

/-- `PhraseTrie.findAllMatchesForTokens` of `core/phraseTrie.ts`. -/
def PhraseNode.findAllMatchesForTokens (root : PhraseNode)
    (tokens : List Str) (stops : List Str) (maxSkips : Int) :
    List PhraseSpan :=
  phraseScan root stops (decide (stops ≠ [])) maxSkips tokens 0

/-! ### Script auto-detection (`src/core/langAutoDetect.ts`) -/

/-- Containment of some character of `text` in an inclusive code point
range, modelling the regex range tests of `langAutoDetect.ts`. -/
def hasCharInRange (text : Str) (lo hi : Nat) : Bool :=
  text.any (fun c => Char.ofNat lo ≤ c && c ≤ Char.ofNat hi)

/-- `inferLikelyLanguageCodes` of `core/langAutoDetect.ts`; each script
range contributes its codes in the source order (the `push` deduplication
never fires because every code is pushed at most once). -/
def inferLikelyLanguageCodes (text : Str) : List String :=
  (if hasCharInRange text 0x4E00 0x9FFF then ["zh"] else [])
    ++ (if hasCharInRange text 0x3040 0x309F || hasCharInRange text 0x30A0 0x30FF
        then ["ja"] else [])
    ++ (if hasCharInRange text 0xAC00 0xD7AF then ["ko"] else [])
    ++ (if hasCharInRange text 0x400 0x4FF then ["ru"] else [])
    ++ (if hasCharInRange text 0x600 0x6FF then ["ar", "fa"] else [])
    ++ (if hasCharInRange text 0x590 0x5FF then ["he"] else [])
    ++ (if hasCharInRange text 0x900 0x97F then ["hi"] else [])
    ++ (if hasCharInRange text 0xE00 0xE7F then ["th"] else [])

/-! ### Language packs and configuration (`src/languages/index.ts`, `src/index.ts`) -/

/-- String literal helper: the code units of a Lean string literal. -/
def strL (s : String) : Str := s.data

/-- Modelled from the spec: the shipped English word pack
`src/languages/en.ts` is not part of the sources ("Shipped word lists per
language" are explicitly out of scope, "treated as opaque `{code → array of
raw words}` tables supplied to the core").  The model keeps exactly the
entries the spec's concrete scenarios require: scenario 1 needs "bitch" and
scenarios 2/3/4/5 need "shit" in the English word set. -/
def EN_WORDS : List Str := [strL "shit", strL "bitch"]

/-- Modelled from the spec: the pack table `languageWordMap` of
`src/languages/index.ts` keyed in the source's order; the individual pack
files are not part of the sources, so every pack except the English one is
modelled as empty (the spec treats the tables as opaque). -/
def languageWordMap : List (String × List Str) :=
  [("ar", []), ("cs", []), ("da", []), ("de", []), ("en", EN_WORDS),
   ("eo", []), ("es", []), ("fa", []), ("fi", []), ("fr", []),
   ("hi", []), ("hu", []), ("it", []), ("ja", []), ("ko", []),
   ("nl", []), ("no", []), ("pl", []), ("pt", []), ("ru", []),
   ("sv", []), ("th", []), ("tlh", []), ("tr", []), ("zh", [])]

/-- `allLanguageCodes` of `src/languages/index.ts`. -/
def allLanguageCodes : List String := languageWordMap.map Prod.fst

/-- The `MaskingConfig` interface of `src/index.ts`. -/
structure MaskingConfig where
  enabled : Bool
  pattern : Str
  preserveLength : Bool
  preserveFirst : Bool
  preserveLast : Bool
deriving Repr, DecidableEq

/-- The `'trie' | 'aho'` algorithm tag. -/
inductive Algorithm where
  | trie
  | aho
deriving Repr, DecidableEq

/-- The `DetectionSettings` interface of `src/index.ts`; TypeScript optional
fields become `Option`s, read back with the source's `??` fallbacks. -/
structure DetectionSettings where
  levenshteinDistance : Int
  caseSensitive : Bool
  wholeWordsOnly : Bool
  customWords : List Str
  confusableMapping : Option Bool
  ignoreSeparators : Option (List Char)
  stripDiacritics : Option Bool
  useNFKC : Option Bool
  enableInflections : Option Bool
  inflectionSuffixes : Option (List Str)
  allowlist : Option (List Str)
  tokenBoundedFuzzy : Option Bool
  phraseStopwords : Option (List Str)
  phraseMaxSkips : Option Int
  algorithm : Option Algorithm
deriving Repr, DecidableEq

/-- The `LanguageConfig` interface of `src/index.ts`. -/
structure LanguageConfig where
  enabled : List String
  autoDetect : Bool
  fallback : String
deriving Repr, DecidableEq

/-- The `ProfanityBusterConfig` interface of `src/index.ts`. -/
structure ProfanityBusterConfig where
  masking : MaskingConfig
  detection : DetectionSettings
  languages : LanguageConfig
deriving Repr, DecidableEq

/-- `DEFAULT_CONFIG` of `src/index.ts`. -/
def DEFAULT_CONFIG : ProfanityBusterConfig :=
  { masking :=
      { enabled := true, pattern := strL "*", preserveLength := true,
        preserveFirst := true, preserveLast := false },
    detection :=
      { levenshteinDistance := 1, caseSensitive := false,
        wholeWordsOnly := false, customWords := [],
        confusableMapping := some true,
        ignoreSeparators := some [' ', '.', '-', '_', '*'],
        stripDiacritics := some true, useNFKC := some false,
        enableInflections := some true,
        inflectionSuffixes := some [strL "s", strL "es", strL "ed",
          strL "ing", strL "er", strL "ers"],
        allowlist := some [], tokenBoundedFuzzy := some true,
        phraseStopwords := some [strL "of", strL "the", strL "a",
          strL "an", strL "and", strL "to"],
        phraseMaxSkips := some 2, algorithm := some .trie },
    languages := { enabled := ["en"], autoDetect := false, fallback := "en" } }

/-- A partial override of `MaskingConfig` (`Partial<MaskingConfig>`): a
`some` field is present in the override object and replaces the base. -/
structure MaskingOverride where
  enabled : Option Bool := none
  pattern : Option Str := none
  preserveLength : Option Bool := none
  preserveFirst : Option Bool := none
  preserveLast : Option Bool := none
deriving Repr, DecidableEq

/-- A partial override of `DetectionSettings` (`Partial<DetectionSettings>`). -/
structure DetectionOverride where
  levenshteinDistance : Option Int := none
  caseSensitive : Option Bool := none
  wholeWordsOnly : Option Bool := none
  customWords : Option (List Str) := none
  confusableMapping : Option Bool := none
  ignoreSeparators : Option (List Char) := none
  stripDiacritics : Option Bool := none
  useNFKC : Option Bool := none
  enableInflections : Option Bool := none
  inflectionSuffixes : Option (List Str) := none
  allowlist : Option (List Str) := none
  tokenBoundedFuzzy : Option Bool := none
  phraseStopwords : Option (List Str) := none
  phraseMaxSkips : Option Int := none
  algorithm : Option Algorithm := none
deriving Repr, DecidableEq

/-- The `languages` member of `ProfanityBusterUserConfig`:
`LanguageConfig | string[]` (a full object with possibly missing fields, or
a bare code array). -/
inductive LanguagesOverride where
  | list (codes : List String)
  | cfg (enabled : Option (List String)) (autoDetect : Option Bool)
      (fallback : Option String)
deriving Repr, DecidableEq

/-- The `ProfanityBusterUserConfig` type of `src/index.ts`. -/
structure ProfanityBusterUserConfig where
  masking : Option MaskingOverride := none
  detection : Option DetectionOverride := none
  languages : Option LanguagesOverride := none
deriving Repr, DecidableEq

/-- Spread of a masking override onto a base (`{...base, ...override}`). -/
def applyMaskingOverride (base : MaskingConfig) (ov : Option MaskingOverride) :
    MaskingConfig :=
  match ov with
  | none => base
  | some o =>
    { enabled := o.enabled.getD base.enabled,
      pattern := o.pattern.getD base.pattern,
      preserveLength := o.preserveLength.getD base.preserveLength,
      preserveFirst := o.preserveFirst.getD base.preserveFirst,
      preserveLast := o.preserveLast.getD base.preserveLast }

/-- Spread of a detection override onto a base, including the explicit
`customWords` cloning of `mergeConfig`. -/
def applyDetectionOverride (base : DetectionSettings)
    (ov : Option DetectionOverride) : DetectionSettings :=
  match ov with
  | none => base
  | some o =>
    { levenshteinDistance := o.levenshteinDistance.getD base.levenshteinDistance,
      caseSensitive := o.caseSensitive.getD base.caseSensitive,
      wholeWordsOnly := o.wholeWordsOnly.getD base.wholeWordsOnly,
      customWords := o.customWords.getD base.customWords,
      confusableMapping := (o.confusableMapping.map some).getD base.confusableMapping,
      ignoreSeparators := (o.ignoreSeparators.map some).getD base.ignoreSeparators,
      stripDiacritics := (o.stripDiacritics.map some).getD base.stripDiacritics,
      useNFKC := (o.useNFKC.map some).getD base.useNFKC,
      enableInflections := (o.enableInflections.map some).getD base.enableInflections,
      inflectionSuffixes := (o.inflectionSuffixes.map some).getD base.inflectionSuffixes,
      allowlist := (o.allowlist.map some).getD base.allowlist,
      tokenBoundedFuzzy := (o.tokenBoundedFuzzy.map some).getD base.tokenBoundedFuzzy,
      phraseStopwords := (o.phraseStopwords.map some).getD base.phraseStopwords,
      phraseMaxSkips := (o.phraseMaxSkips.map some).getD base.phraseMaxSkips,
      algorithm := (o.algorithm.map some).getD base.algorithm }

/-- `ProfanityBuster.mergeConfig` of `src/index.ts` (lines 111–149).  The
source's `baseClone` deep-copies the base before spreading; values here are
pure, so cloning is the identity. -/
def mergeConfig (base : ProfanityBusterConfig)
    (override : Option ProfanityBusterUserConfig) : ProfanityBusterConfig :=
  match override with
  | none => base
  | some ov =>
    let languages : LanguageConfig :=
      match ov.languages with
      | some (.list codes) => { base.languages with enabled := codes }
      | some (.cfg en ad fb) =>
        { enabled := en.getD base.languages.enabled,
          autoDetect := ad.getD base.languages.autoDetect,
          fallback := fb.getD base.languages.fallback }
      | none => base.languages
    { masking := applyMaskingOverride base.masking ov.masking,
      detection := applyDetectionOverride base.detection ov.detection,
      languages := languages }

/-! ### The detector (`src/index.ts`) -/

/-- A detection match (`DetectionResult['matches']` entry). -/
structure MatchEntry where
  word : Str
  index : Nat
  length : Nat
  language : String
deriving Repr, DecidableEq

/-- The `DetectionResult` interface of `src/index.ts`.  The `matches` field
is called `matchList` here because `matches` is a Lean keyword. -/
structure DetectionResult where
  hasProfanity : Bool
  matchList : List MatchEntry
deriving Repr, DecidableEq

/-- The `ProfanityBuster` instance state: configuration, per-language word
sets, compiled matchers, and the phrase store. -/
structure ProfanityBuster where
  config : ProfanityBusterConfig
  languageWordlists : List (String × List Str)
  languageTries : List (String × TrieNode)
  languageAutomata : List (String × AhoCorasick)
  phraseTrie : PhraseNode
  phraseList : List (List Str)
deriving Repr

/-- The normalization options built by `ProfanityBuster.normalizeWord`
(lines 496–505) and by `detect` (lines 152–159); the two sites pass
identical options. -/
def ProfanityBuster.normOptions (b : ProfanityBuster) : NormalizationOptions :=
  { caseSensitive := b.config.detection.caseSensitive,
    confusableMapping := b.config.detection.confusableMapping.getD true,
    stripDiacritics := some (b.config.detection.stripDiacritics.getD true),
    useNFKC := some (b.config.detection.useNFKC.getD false),
    lengthPreserving := some true,
    stripInvisible := some true }

/-- `ProfanityBuster.normalizeWord` (private method of `src/index.ts`). -/
def ProfanityBuster.normalizeWordM (b : ProfanityBuster) (word : Str) : Str :=
  normalizeWord word b.normOptions

/-- `ProfanityBuster.expandWordVariants`: the normalized word plus, when
`enableInflections` is truthy, one variant per configured suffix
(insertion-ordered set semantics). -/
def ProfanityBuster.expandWordVariants (b : ProfanityBuster) (word : Str) :
    List Str :=
  let normalized := b.normalizeWordM word
  let variants : List Str := [normalized]
  if b.config.detection.enableInflections.getD false then
    let suffixes := b.config.detection.inflectionSuffixes.getD []
    suffixes.foldl (fun vs suffix => jsSetAdd vs (normalized ++ suffix)) variants
  else variants

/-- The trie built by the `'trie'` branch of
`ProfanityBuster.rebuildMatcherForLanguage`: insert the inflection variants
of every word of the (optional) word set into a fresh trie. -/
def buildTrieForWords (b : ProfanityBuster) (words : Option (List Str)) :
    TrieNode :=
  match words with
  | some ws => ws.foldl (fun t w => t.insertAll (b.expandWordVariants w))
      TrieNode.empty
  | none => TrieNode.empty

/-- The automaton built by the `'aho'` branch of
`ProfanityBuster.rebuildMatcherForLanguage`. -/
def buildAhoForWords (b : ProfanityBuster) (words : Option (List Str)) :
    AhoCorasick :=
  let ac := AhoCorasick.mkEmpty
  let ac := match words with
    | some ws => ws.foldl
        (fun (a : AhoCorasick) w => a.insertAll (b.expandWordVariants w)) ac
    | none => ac
  ac.build

/-- `ProfanityBuster.rebuildMatcherForLanguage`: rebuild the matcher of one
language under the current algorithm, dropping the matcher of the other
kind. -/
def ProfanityBuster.rebuildMatcherForLanguage (b : ProfanityBuster)
    (code : String) : ProfanityBuster :=
  let words := jsMapGet b.languageWordlists code
  let algorithm := b.config.detection.algorithm.getD .trie
  match algorithm with
  | .aho =>
    { b with languageTries := jsMapDelete b.languageTries code,
             languageAutomata := jsMapSet b.languageAutomata code
               (buildAhoForWords b words) }
  | .trie =>
    { b with languageAutomata := jsMapDelete b.languageAutomata code,
             languageTries := jsMapSet b.languageTries code
               (buildTrieForWords b words) }

/-- `ProfanityBuster.loadLanguagePacks` (private; called by the constructor
and `setLanguages`): the English pack is populated, every other code gets an
empty set, and the matcher is rebuilt. -/
def ProfanityBuster.loadLanguagePacks (b : ProfanityBuster)
    (codes : List String) : ProfanityBuster :=
  codes.foldl (fun b code =>
    let b :=
      if code = "en" then
        { b with languageWordlists := (jsMapSet b.languageWordlists "en"
            (EN_WORDS.foldl (fun s w => jsSetAdd s (b.normalizeWordM w)) [])) }
      else
        { b with languageWordlists := jsMapSet b.languageWordlists code [] }
    b.rebuildMatcherForLanguage code) b

/-- `ProfanityBuster.addCustomWords` (private; called by the constructor):
all inflection variants of each custom word are added to the fallback
language's word set. -/
def ProfanityBuster.addCustomWords (b : ProfanityBuster) (words : List Str) :
    ProfanityBuster :=
  if words.length = 0 then b
  else
    let targetCode := b.config.languages.fallback
    let target := (jsMapGet b.languageWordlists targetCode).getD []
    let target := words.foldl
      (fun t word => (b.expandWordVariants word).foldl jsSetAdd t) target
    let b := { b with
      languageWordlists := jsMapSet b.languageWordlists targetCode target }
    b.rebuildMatcherForLanguage targetCode

/-- The `ProfanityBuster` constructor. -/
def mkProfanityBuster (userConfig : Option ProfanityBusterUserConfig) :
    ProfanityBuster :=
  let config := mergeConfig DEFAULT_CONFIG userConfig
  let b : ProfanityBuster :=
    { config := config, languageWordlists := [], languageTries := [],
      languageAutomata := [], phraseTrie := PhraseNode.empty, phraseList := [] }
  let b := b.loadLanguagePacks config.languages.enabled
  b.addCustomWords config.detection.customWords

/-- `ProfanityBuster.addWord`. -/
def ProfanityBuster.addWord (b : ProfanityBuster) (word : Str)
    (language : Option String) : ProfanityBuster :=
  let lang := language.getD b.config.languages.fallback
  let set := (jsMapGet b.languageWordlists lang).getD []
  let set := jsSetAdd set (b.normalizeWordM word)
  let b := { b with languageWordlists := jsMapSet b.languageWordlists lang set }
  b.rebuildMatcherForLanguage lang

/-- `ProfanityBuster.removeWord`. -/
def ProfanityBuster.removeWord (b : ProfanityBuster) (word : Str)
    (language : Option String) : ProfanityBuster :=
  let lang := language.getD b.config.languages.fallback
  match jsMapGet b.languageWordlists lang with
  | none => b
  | some set =>
    let set := set.filter (fun w => w ≠ b.normalizeWordM word)
    let b := { b with languageWordlists := jsMapSet b.languageWordlists lang set }
    b.rebuildMatcherForLanguage lang

/-- A token produced by `ProfanityBuster.tokenizeWithOffsets`. -/
structure TokenOffset where
  value : Str
  start : Nat
  endExclusive : Nat
deriving Repr, DecidableEq

/-- The scan behind `ProfanityBuster.tokenizeWithOffsets`: the global regex
`/[\p{L}\p{N}_]+/gu` yields exactly the maximal runs of word characters,
with their start offsets.  The scan carries the run collected so far and its
start offset; a run is emitted when a non-word character or the end of the
text is reached. -/
def tokenizeGo : Str → Nat → Str → Nat → List TokenOffset
  | [], _, [], _ => []
  | [], i, run, runStart =>
    [{ value := run, start := runStart, endExclusive := i }]
  | c :: rest, i, run, runStart =>
    if isWordChar c then
      match run with
      | [] => tokenizeGo rest (i + 1) [c] i
      | _ :: _ => tokenizeGo rest (i + 1) (run ++ [c]) runStart
    else
      match run with
      | [] => tokenizeGo rest (i + 1) [] runStart
      | _ :: _ =>
        { value := run, start := runStart, endExclusive := i }
          :: tokenizeGo rest (i + 1) [] 0

/-- `ProfanityBuster.tokenizeWithOffsets`. -/
def tokenizeWithOffsets (text : Str) : List TokenOffset :=
  tokenizeGo text 0 [] 0

/-- `ProfanityBuster.addPhrase`: tokenize the normalized phrase, store the
token sequence, and re-insert all stored phrases into the phrase trie
(`rebuildPhraseTrie` inserts into the existing trie instance). -/
def ProfanityBuster.addPhrase (b : ProfanityBuster) (phrase : Str) :
    ProfanityBuster :=
  let tokens := (tokenizeWithOffsets (b.normalizeWordM phrase)).map
    TokenOffset.value
  if tokens.length = 0 then b
  else
    let b := { b with phraseList := b.phraseList ++ [tokens] }
    { b with phraseTrie := b.phraseTrie.insertAll b.phraseList }

/-- The first alternative of the regex group `(?:s1|s2|…)?` that matches at
the given position (alternation tries the suffixes in configuration order
and nothing follows the group, so no backtracking occurs); `0` when none
matches, as for the empty alternative. -/
def inflSuffixLen (suffixes : List Str) (rest : Str) : Nat :=
  match suffixes with
  | [] => 0
  | s :: ss => if s.isPrefixOf rest then s.length else inflSuffixLen ss rest

/-- Length of the regex match `base(?:s1|…)?` anchored at position `p` of
`text`, or `none` when the base does not occur there. -/
def inflMatchLen (base : Str) (suffixes : List Str) (text : Str) (p : Nat) :
    Option Nat :=
  if base.isPrefixOf (text.drop p) then
    some (base.length + inflSuffixLen suffixes (text.drop (p + base.length)))
  else none

/-- The leftmost regex match at a position `≥ lastIndex`, as found by
`RegExp.prototype.exec` on a `g`-flagged regex. -/
def inflFindFrom (base : Str) (suffixes : List Str) (text : Str)
    (lastIndex : Nat) : Option (Nat × Nat) :=
  ((List.range (text.length + 1 - lastIndex)).map (· + lastIndex)).findSome?
    (fun p => (inflMatchLen base suffixes text p).map (fun len => (p, len)))

/-- The `while ((m = regex.exec(text)) !== null)` loop of
`ProfanityBuster.findWordOccurrencesWithInflections` (lines 566–577),
including the whole-word boundary filter.  The fuel is always sufficient for
a non-empty base, whose matches advance `lastIndex` by at least one; for the
empty base the JavaScript loop never terminates (a zero-length match leaves
`lastIndex` unchanged), and the model returns after exhausting its fuel. -/
def inflExecLoop (base : Str) (suffixes : List Str) (whole : Bool)
    (text : Str) : Nat → Nat → List Nat
  | 0, _ => []
  | fuel + 1, lastIndex =>
    match inflFindFrom base suffixes text lastIndex with
    | none => []
    | some (start, len) =>
      let stop := start + len
      let leftOk := start = 0 ∨ ¬ isWordChar (text.getD (start - 1) ' ')
      let rightOk := stop ≥ text.length ∨ ¬ isWordChar (text.getD stop ' ')
      let here : List Nat :=
        if whole && !(decide leftOk && decide rightOk) then [] else [start]
      here ++ inflExecLoop base suffixes whole text fuel (start + len)

/-- `ProfanityBuster.findWordOccurrencesWithInflections` of `src/index.ts`. -/
def ProfanityBuster.findWordOccurrencesWithInflections
    (_b : ProfanityBuster) (text : Str) (base : Str) (suffixes : List Str)
    (wholeWordsOnly : Bool) : List Nat :=
  inflExecLoop base suffixes wholeWordsOnly text (text.length + 2) 0

/-- Nested list read `dp[i][j]` of the Levenshtein matrix. -/
def listGet2 (dp : List (List Nat)) (i j : Nat) : Nat :=
  (dp.getD i []).getD j 0

/-- Nested list write `dp[i][j] = v` of the Levenshtein matrix. -/
def listSet2 (dp : List (List Nat)) (i j : Nat) (v : Nat) :
    List (List Nat) :=
  dp.set i ((dp.getD i []).set j v)

/-- `ProfanityBuster.levenshtein`: the classic dynamic-programming matrix of
lines 633–650, with the first row and column pre-filled (named
`levenshteinDist` to avoid the homonymous Mathlib definition). -/
def levenshteinDist (a b : Str) : Nat :=
  let m := a.length
  let n := b.length
  let dp : List (List Nat) := (List.range (m + 1)).map (fun i =>
    (List.range (n + 1)).map (fun j => if j = 0 then i else if i = 0 then j else 0))
  let dp := (List.range m).foldl (fun dp i1 =>
    (List.range n).foldl (fun dp j1 =>
      let i := i1 + 1
      let j := j1 + 1
      let cost := if a.getD (i - 1) ' ' = b.getD (j - 1) ' ' then 0 else 1
      let v := min (min (listGet2 dp (i - 1) j + 1) (listGet2 dp i (j - 1) + 1))
        (listGet2 dp (i - 1) (j - 1) + cost)
      listSet2 dp i j v) dp) dp
  listGet2 dp m n

/-- `ProfanityBuster.findMinDistanceInWindow`: best start offset and
distance over all window substrings of the target's length.  The distance is
`none` when the loop never runs (`Number.POSITIVE_INFINITY` in the source);
the source's `if (bestDistance === 0) break` is a pure shortcut — with the
strict `d < bestDistance` update later iterations cannot change a zero best,
so the fold below computes the same result. -/
def findMinDistanceInWindow (window target : Str) : Nat × Option Nat :=
  let bounds : List Nat :=
    if target.length ≤ window.length then
      List.range (window.length - target.length + 1)
    else []
  let best := bounds.foldl (fun (best : Int × Option Nat) i =>
    let candidate := (window.drop i).take target.length
    let d := levenshteinDist candidate target
    let better := match best.2 with
      | none => true
      | some bd => decide (d < bd)
    if better then ((i : Int), some d) else best) ((-1 : Int), none)
  ((if best.1 = -1 then 0 else best.1.toNat), best.2)

/-- `ProfanityBuster.findApproximateOccurrence` (lines 580–607): slide a
window over the text, pick the best in-window distance, and return the first
start position within tolerance (or `-1`).  `maxDistance` is an `Int`
because `scaledMaxDistance` produces one; all callers pass a non-negative
value. -/
def ProfanityBuster.findApproximateOccurrence (b : ProfanityBuster)
    (text word : Str) (maxDistance : Int) (wholeWordsOnly : Bool) : Int :=
  let length := text.length
  let tokenBounded := b.config.detection.tokenBoundedFuzzy.getD true
  let windowSize := word.length + maxDistance.toNat
  let starts : List Nat :=
    if word.length ≤ length then List.range (length - word.length + 1) else []
  let hit := starts.findSome? (fun i =>
    if tokenBounded && decide (0 < i) && isWordChar (text.getD (i - 1) ' ') then
      none
    else
      let window := (text.drop i).take (min (length - i) windowSize)
      let r := findMinDistanceInWindow window word
      let ok := match r.2 with
        | some d => decide ((d : Int) ≤ maxDistance)
        | none => false
      if ok then
        let start := i + r.1
        if wholeWordsOnly then
          let leftOk := start = 0 ∨ ¬ isWordChar (text.getD (start - 1) ' ')
          let rightOk := start + word.length ≥ length
            ∨ ¬ isWordChar (text.getD (start + word.length) ' ')
          if decide leftOk && decide rightOk then some ((start : Int)) else none
        else some ((start : Int))
      else none)
  hit.getD (-1)

/-- `ProfanityBuster.scaledMaxDistance` (lines 627–631). -/
def ProfanityBuster.scaledMaxDistance (b : ProfanityBuster) (word : Str) :
    Int :=
  let base := b.config.detection.levenshteinDistance
  max 0 (min base ((word.length / 5 : Nat) : Int))

/-- `ProfanityBuster.collectWordlistsForCodes` (lines 292–299). -/
def ProfanityBuster.collectWordlistsForCodes (b : ProfanityBuster)
    (codes : List String) : List (String × List Str) :=
  codes.foldl (fun active code =>
    match jsMapGet b.languageWordlists code with
    | some list => if 0 < list.length then jsMapSet active code list else active
    | none => active) []

/-- `ProfanityBuster.ensureLoadedForCodes` (lines 327–350): populate any
code that lacks a non-empty word set with a compiled matcher from the pack
table, skipping unknown or empty packs. -/
def ProfanityBuster.ensureLoadedForCodes (b : ProfanityBuster)
    (codes : List String) : ProfanityBuster :=
  codes.foldl (fun b code =>
    let alreadyLoaded :=
      match jsMapGet b.languageWordlists code with
      | some s => 0 < s.length
        && ((jsMapGet b.languageTries code).isSome
          || (jsMapGet b.languageAutomata code).isSome)
      | none => false
    if alreadyLoaded then b
    else
      let words : Option (List Str) :=
        if code = "en" then some EN_WORDS else jsMapGet languageWordMap code
      match words with
      | none => b
      | some ws =>
        if ws.length = 0 then b
        else
          let normalized := ws.foldl (fun s w => jsSetAdd s (b.normalizeWordM w)) []
          let b := { b with
            languageWordlists := jsMapSet b.languageWordlists code normalized }
          b.rebuildMatcherForLanguage code) b

/-- `ProfanityBuster.selectAutoDetectLanguages` (lines 301–323): script
heuristics, then loaded languages, then (with auto-detect) loading every
known pack; the instance is threaded because the last fallback mutates it. -/
def ProfanityBuster.selectAutoDetectLanguages (b : ProfanityBuster)
    (text : Str) : List String × ProfanityBuster :=
  let likely := inferLikelyLanguageCodes text
  let loaded := (b.languageWordlists.filter (fun p => 0 < p.2.length)).map
    Prod.fst
  let candidates := likely.filter (fun c => c ∈ loaded)
  if 0 < candidates.length then (candidates, b)
  else if 0 < loaded.length then (loaded, b)
  else if b.config.languages.autoDetect then
    (allLanguageCodes, b.ensureLoadedForCodes allLanguageCodes)
  else (b.config.languages.enabled, b)

/-- The exact-matcher loop of `detect` (lines 167–189): scan each candidate
language with its compiled matcher (per the configured algorithm) and stop
at the first language whose matcher yields a non-empty result list;
a language without a stored matcher is skipped (`continue`). -/
def ProfanityBuster.exactStage (b : ProfanityBuster) (textNormalized : Str) :
    List (String × List Str) → List MatchEntry
  | [] => []
  | (languageCode, _) :: rest =>
    let seps := b.config.detection.ignoreSeparators.getD []
    let whole := b.config.detection.wholeWordsOnly
    let algo := b.config.detection.algorithm.getD .trie
    let langMatches : List MatchEntry :=
      match algo with
      | .aho =>
        match jsMapGet b.languageAutomata languageCode with
        | none => []
        | some automaton =>
          (automaton.findAllMatches textNormalized whole seps).map (fun m =>
            { word := (textNormalized.drop m.index).take m.length,
              index := m.index, length := m.length, language := languageCode })
      | .trie =>
        match jsMapGet b.languageTries languageCode with
        | none => []
        | some trie =>
          (trie.findAllMatches textNormalized whole seps).map (fun m =>
            { word := (textNormalized.drop m.index).take m.length,
              index := m.index, length := m.length, language := languageCode })
    if 0 < langMatches.length then langMatches
    else b.exactStage textNormalized rest

/-- The push of one occurrence inside the inflection scan of `detect`
(lines 202–209): append the match unless its `(index, length)` key is
already covered.  The `covered` set of `"index:length"` keys is modelled as
a list of `(index, length)` pairs — the string encoding is injective on
pairs of numbers, so membership agrees. -/
def inflOccStep (word : Str) (languageCode : String)
    (st : List MatchEntry × List (Nat × Nat)) (index : Nat) :
    List MatchEntry × List (Nat × Nat) :=
  let key := (index, word.length)
  if key ∈ st.2 then st
  else (st.1 ++ [{ word := word, index := index, length := word.length,
                   language := languageCode }],
        st.2 ++ [key])

/-- The per-word body of the inflection scan: compute the occurrences of
the word (with inflection suffixes) and push each. -/
def inflWordStep (b : ProfanityBuster) (textNormalized : Str)
    (languageCode : String) (st : List MatchEntry × List (Nat × Nat))
    (word : Str) : List MatchEntry × List (Nat × Nat) :=
  let occ := b.findWordOccurrencesWithInflections textNormalized word
    (b.config.detection.inflectionSuffixes.getD [])
    b.config.detection.wholeWordsOnly
  occ.foldl (inflOccStep word languageCode) st

/-- The per-language body of the inflection scan. -/
def inflEntryStep (b : ProfanityBuster) (textNormalized : Str)
    (st : List MatchEntry × List (Nat × Nat)) (p : String × List Str) :
    List MatchEntry × List (Nat × Nat) :=
  p.2.foldl (inflWordStep b textNormalized p.1) st

/-- The backup inflection-aware scan of `detect` (lines 192–211). -/
def ProfanityBuster.inflStage (b : ProfanityBuster) (textNormalized : Str)
    (wordlists : List (String × List Str)) (matches0 : List MatchEntry) :
    List MatchEntry :=
  if b.config.detection.enableInflections.getD true then
    let covered0 := matches0.map (fun m => (m.index, m.length))
    (wordlists.foldl (inflEntryStep b textNormalized)
      (matches0, covered0)).1
  else matches0

/-- Joining token values with single spaces, as
`tokenValues.slice(i, j + 1).join(' ')`. -/
def joinWithSpace : List Str → Str
  | [] => []
  | [t] => t
  | t :: ts => t ++ ' ' :: joinWithSpace ts

/-- The phrase stage of `detect` (lines 214–231): runs only when no match
was found yet and phrases exist, and pushes at most the first token span. -/
def ProfanityBuster.phraseStage (b : ProfanityBuster) (textNormalized : Str)
    (found : List MatchEntry) : List MatchEntry :=
  if found.length = 0 && 0 < b.phraseList.length then
    let tokens := tokenizeWithOffsets textNormalized
    let tokenValues := tokens.map TokenOffset.value
    let spans := b.phraseTrie.findAllMatchesForTokens tokenValues
      (b.config.detection.phraseStopwords.getD [])
      (b.config.detection.phraseMaxSkips.getD 0)
    match spans with
    | [] => found
    | span :: _ =>
      let start := match tokens.get? span.startTokenIndex with
        | some t => t.start
        | none => 0
      let endExclusive := match tokens.get? span.endTokenIndex with
        | some t => t.endExclusive
        | none => start
      let len := endExclusive - start
      let phrase := joinWithSpace ((tokenValues.drop span.startTokenIndex).take
        (span.endTokenIndex + 1 - span.startTokenIndex))
      found ++ [{ word := phrase, index := start, length := len,
                    language := b.config.languages.fallback }]
  else found

/-- The inner word loop of the fuzzy stage: the first word of the language
whose approximate occurrence is found (`break` on the first push). -/
def fuzzyFirstWord (b : ProfanityBuster) (textNormalized : Str) :
    List Str → Option (Str × Nat)
  | [] => none
  | word :: rest =>
    let index := b.findApproximateOccurrence textNormalized word
      (b.scaledMaxDistance word) b.config.detection.wholeWordsOnly
    if index ≠ -1 then some (word, index.toNat)
    else fuzzyFirstWord b textNormalized rest

/-- The language loop of the fuzzy stage: the first language with a hit
contributes exactly one match (`break` after the push). -/
def fuzzyGo (b : ProfanityBuster) (textNormalized : Str)
    (found : List MatchEntry) : List (String × List Str) → List MatchEntry
  | [] => found
  | (languageCode, words) :: rest =>
    match fuzzyFirstWord b textNormalized words with
    | some (word, index) =>
      found ++ [{ word := word, index := index, length := word.length,
                  language := languageCode }]
    | none => fuzzyGo b textNormalized found rest

/-- The fuzzy fallback of `detect` (lines 234–250): runs only when no match
was found yet and the edit distance is positive. -/
def ProfanityBuster.fuzzyStage (b : ProfanityBuster) (textNormalized : Str)
    (wordlists : List (String × List Str)) (found : List MatchEntry) :
    List MatchEntry :=
  if found.length = 0 && decide (0 < b.config.detection.levenshteinDistance)
  then fuzzyGo b textNormalized found wordlists
  else found

/-- `ProfanityBuster.detect` (lines 151–253), threading the instance state
because the auto-detect path can load language packs. -/
def ProfanityBuster.detect (b : ProfanityBuster) (text : Str) :
    DetectionResult × ProfanityBuster :=
  let textNormalized := normalizeForDetection text b.normOptions
  let st :=
    if b.config.languages.autoDetect then
      b.selectAutoDetectLanguages textNormalized
    else (b.config.languages.enabled, b)
  let candidateCodes := st.1
  let b := st.2
  let wordlists := b.collectWordlistsForCodes candidateCodes
  let found := b.exactStage textNormalized wordlists
  let found := b.inflStage textNormalized wordlists found
  let found := b.phraseStage textNormalized found
  let found := b.fuzzyStage textNormalized wordlists found
  ({ hasProfanity := 0 < found.length, matchList := found }, b)

/-- String repetition `pattern.repeat(n)`. -/
def strRepeat (pattern : Str) (n : Nat) : Str :=
  (List.range n).flatMap (fun _ => pattern)

/-- `ProfanityBuster.maskWord` (lines 268–281). -/
def ProfanityBuster.maskWord (b : ProfanityBuster) (word : Str) : Str :=
  let mc := b.config.masking
  if !mc.preserveLength then strRepeat mc.pattern (max 1 word.length)
  else
    (word.enum).flatMap (fun p =>
      if (mc.preserveFirst && p.1 = 0)
          || (mc.preserveLast && p.1 = word.length - 1) then [p.2]
      else mc.pattern)

/-- `Array.prototype.splice(start, deleteCount, ...items)` on a list. -/
def listSplice {α : Type} (l : List α) (start deleteCount : Nat)
    (items : List α) : List α :=
  l.take start ++ items ++ l.drop (start + deleteCount)

/-- `ProfanityBuster.sanitize` (lines 255–266): mask every detected span in
order over the mutable output array. -/
def ProfanityBuster.sanitize (b : ProfanityBuster) (text : Str) :
    Str × ProfanityBuster :=
  let r := b.detect text
  let detection := r.1
  let b := r.2
  if !detection.hasProfanity || !b.config.masking.enabled then (text, b)
  else
    let output := detection.matchList.foldl (fun out m =>
      let original := (out.drop m.index).take m.length
      let masked := b.maskWord original
      listSplice out m.index m.length masked) text
    (output, b)

/-! ### Concrete detector states used by the scenario theorems -/

/-- The detector produced by `new ProfanityBuster()` (default
configuration). -/
def defaultBuster : ProfanityBuster := mkProfanityBuster none

/-- A user configuration that routes the given custom words to a private
language code `xx` (so the scenarios do not depend on the contents of the
shipped English pack), with the given whole-word and inflection switches. -/
def xxUserConfig (customWords : List Str) (whole infl : Bool) :
    ProfanityBusterUserConfig :=
  { detection := some
      ({ customWords := some customWords,
         wholeWordsOnly := some whole,
         enableInflections := some infl } : DetectionOverride),
    languages := some (.cfg (some ["xx"]) (some false) (some "xx")) }

/-- Whole-word detector whose word set is the inflection expansion of
"shit". -/
def c3Buster : ProfanityBuster :=
  mkProfanityBuster (some (xxUserConfig [strL "shit"] true true))

/-- Detector whose word set is the inflection expansion of "ab" and "ac". -/
def c4Buster : ProfanityBuster :=
  mkProfanityBuster (some (xxUserConfig [strL "ab", strL "ac"] false true))

/-- Detector with the single word "ab" and inflections disabled. -/
def c5Buster : ProfanityBuster :=
  mkProfanityBuster (some (xxUserConfig [strL "ab"] false false))

/-- Detector with an empty word set to which the empty word is added
(inflections disabled). -/
def c8Buster : ProfanityBuster :=
  (mkProfanityBuster (some (xxUserConfig [] false false))).addWord (strL "")
    none

/-- A configuration override with negative `levenshteinDistance` and
negative `phraseMaxSkips`. -/
def c9UserConfig : ProfanityBusterUserConfig :=
  { detection := some
      ({ levenshteinDistance := some (-1),
         phraseMaxSkips := some (-1) } : DetectionOverride) }

/-- The detector built from the negative-value configuration. -/
def c9Buster : ProfanityBuster := mkProfanityBuster (some c9UserConfig)

/-- A detector with auto-detect enabled and only the (empty) Esperanto pack
loaded. -/
def c10Buster : ProfanityBuster :=
  mkProfanityBuster
    (some { languages := some (.cfg (some ["eo"]) (some true) (some "en")) })

/-- The obfuscated input of spec scenario 5:
"s" U+200B "h" U+2001 "i" U+200D "t". -/
def c6Text : Str :=
  ['s', Char.ofNat 0x200B, 'h', Char.ofNat 0x2001, 'i', Char.ofNat 0x200D, 't']

/-- The default detector after `addPhrase("son of a bitch")`. -/
def c7Buster : ProfanityBuster := defaultBuster.addPhrase (strL "son of a bitch")

/-- The input of spec scenario 6. -/
def c7Text : Str := strL "you are a son of the a   bitch indeed"

/-! ### C1 infrastructure: trie paths, longest suffixes, and a simulation
check relating an Aho automaton to a trie -/

/-- Follow a character path from a trie node through `children`. -/
def trieNodeAt : TrieNode → Str → Option TrieNode
  | t, [] => some t
  | t, c :: cs =>
    match childGet t.children c with
    | some n => trieNodeAt n cs
    | none => none

/-- The path `s` exists in the trie and ends at a terminal node. -/
def trieTerminal (t : TrieNode) (s : Str) : Bool :=
  match trieNodeAt t s with
  | some n => n.isTerminal
  | none => false

/-- The longest suffix of `s` that is a path of the trie (the semantic
value of an Aho–Corasick run state). -/
def longestTrieSuffix (tr : TrieNode) : Str → Str
  | [] => []
  | c :: cs =>
    if (trieNodeAt tr (c :: cs)).isSome then c :: cs
    else longestTrieSuffix tr cs

/-- Fuel-bounded check that every edge label of the trie lies in `alpha`. -/
def trieCharsOkF (alpha : List Char) : Nat → TrieNode → Bool
  | 0, _ => false
  | fuel + 1, t =>
    t.children.all (fun p => decide (p.1 ∈ alpha) && trieCharsOkF alpha fuel p.2)

/-- The state update of one step of the `AhoCorasick.findAllMatches` search
loop (failure walk, then goto). -/
def acStep (nodes : List AhoNode) (st : Nat) (c : Char) : Nat :=
  let f := acFailWalk nodes c nodes.length st
  match jsMapGet (acGet nodes f).children c with
  | some next => next
  | none => f

/-- Iterate the failure links `fuel` times (or until the root). -/
def failIter (nodes : List AhoNode) : Nat → Nat → Nat
  | 0, f => f
  | fuel + 1, f => if f = 0 then 0 else failIter nodes fuel (acGet nodes f).fail

/-- Every child key of every automaton node lies in `alpha`. -/
def acNodesAlphaOk (nodes : List AhoNode) (alpha : List Char) : Bool :=
  nodes.all (fun nd => nd.children.all (fun p => decide (p.1 ∈ alpha)))

/-- From every node the failure chain reaches the root within
`nodes.length` steps. -/
def acFailChainOk (nodes : List AhoNode) : Bool :=
  (List.range nodes.length).all (fun u =>
    decide (failIter nodes nodes.length u = 0))

/-- Every automaton transition from a mapped state lands on a mapped state
whose path is the longest trie suffix of the extended path. -/
def acPmStepOk (tr : TrieNode) (nodes : List AhoNode) (alpha : List Char)
    (pm : List (Nat × Str)) : Bool :=
  pm.all (fun p => alpha.all (fun c =>
    decide (jsMapGet pm (acStep nodes p.1 c)
      = some (longestTrieSuffix tr (p.2 ++ [c])))))

/-- The terminal lengths stored at a mapped state are exactly the lengths
of the nonempty terminal suffixes of its path. -/
def acPmTermOk (tr : TrieNode) (nodes : List AhoNode)
    (pm : List (Nat × Str)) : Bool :=
  pm.all (fun p =>
    (acGet nodes p.1).terminalLengths.all (fun len =>
      decide (0 < len) && decide (len ≤ p.2.length)
        && trieTerminal tr (p.2.drop (p.2.length - len))) &&
    (List.range (p.2.length + 1)).all (fun len =>
      !(decide (0 < len) && trieTerminal tr (p.2.drop (p.2.length - len)))
        || decide (len ∈ (acGet nodes p.1).terminalLengths)))

/-- Every mapped state index is a real node index. -/
def acPmBoundOk (nodes : List AhoNode) (pm : List (Nat × Str)) : Bool :=
  pm.all (fun p => decide (p.1 < nodes.length))

/-- Decidable simulation check: the automaton `ac`, through the
state-to-path table `pm`, simulates searching the trie `tr` over the
alphabet `alpha` (with `fuel` bounding the trie depth). -/
def acSimCheck (tr : TrieNode) (ac : AhoCorasick) (alpha : List Char)
    (pm : List (Nat × Str)) (fuel : Nat) : Bool :=
  decide (jsMapGet pm 0 = some ([] : Str)) && trieCharsOkF alpha fuel tr
    && acNodesAlphaOk ac.nodes alpha && acFailChainOk ac.nodes
    && acPmStepOk tr ac.nodes alpha pm && acPmTermOk tr ac.nodes pm
    && acPmBoundOk ac.nodes pm

/-- The characters actually consumed by the trie walk: the separator-skip
filter applied to a stretch of text. -/
def compactF (ig : Bool) (seps : List Char) (l : Str) : Str :=
  l.filter (fun c => !(ig && decide (c ∈ seps)))

def c1SimWords : List Str := [strL "a", strL "ab", strL "ba", strL "aba"]

def c1SimTrie : TrieNode := TrieNode.empty.insertAll c1SimWords

def c1SimAuto : AhoCorasick :=
  (AhoCorasick.mkEmpty.insertAll c1SimWords).build

def c1SimPm : List (Nat × Str) :=
  [(0, []), (1, strL "a"), (2, strL "ab"), (3, strL "b"), (4, strL "ba"),
    (5, strL "aba")]

/-! ### Claim theorems -/

set_option maxRecDepth 4000

/-- C1, counterexample: on the word set built from "a" and "ab" with
inflections disabled and the text "ab" (no separators, whole-words off),
the Aho–Corasick back-end reports the span set containing both (0,1) and
(0,2) while the trie back-end reports only the longest span (0,2) from the
start, so the two span sets are not equal. -/
theorem c1_trie_aho_span_sets_differ :
    ((((AhoCorasick.mkEmpty.insertAll [strL "a", strL "ab"]).build).findAllMatches
        (strL "ab") false []).map (fun m => (m.index, m.length)))
      = [(0, 1), (0, 2)] ∧
    (((TrieNode.empty.insertAll [strL "a", strL "ab"]).findAllMatches
        (strL "ab") false []).map (fun m => (m.index, m.length)))
      = [(0, 2)] := by
  decide

/-- C2, counterexample: normalizing the one-code-point input U+0130 with the
options `detect` always passes (`length_preserving = true`) yields a
two-code-point output ("İ".toLowerCase() is "i" plus the combining dot
U+0307, which survives the per-character diacritic stripping), so
`normalizeForDetection` is not length-preserving. -/
theorem c2_normalize_not_length_preserving_on_dotted_capital_i :
    ([Char.ofNat 0x130] : Str).length = 1 ∧
    (normalizeForDetection [Char.ofNat 0x130] defaultBuster.normOptions)
      = ['i', Char.ofNat 0x307] := by
  decide

/-- C3, code bug: with `whole_words_only = true` and the word "shit"
(inflections enabled), detecting "shits" returns — besides the whole-word
span (0,5) found by the trie — the inflection-scan span (0,4), whose right
neighbour, the code point at position 4 of the normalized text, is the word
character "s": the scan checks the boundaries of the full inflected
occurrence but reports a span of the base word's length. -/
theorem c3_inflection_scan_emits_span_violating_word_boundary :
    c3Buster.config.detection.wholeWordsOnly = true ∧
    ((c3Buster.detect (strL "shits")).1.matchList.map
      (fun m => (m.index, m.length))) = [(0, 5), (0, 4)] ∧
    isWordChar ((normalizeForDetection (strL "shits")
      c3Buster.normOptions).getD 4 ' ') = true := by
  decide

/-- C4, counterexample: with the word set built from "ab" and "ac" (default
masking: pattern "*", preserve length and first letter), sanitizing "abc"
masks the match "ab" into "a*c"; but "*" is an ignored separator, so the
sanitized text "a*c" now matches "ac" across the mask and sanitizing again
yields "a**" — `sanitize` is not idempotent. -/
theorem c4_sanitize_not_idempotent :
    (c4Buster.sanitize (strL "abc")).1 = strL "a*c" ∧
    ((c4Buster.sanitize (strL "abc")).2.sanitize (strL "a*c")).1
      = strL "a**" ∧
    strL "a**" ≠ strL "a*c" := by
  decide

/-- C5, counterexample: with the single word "ab" and inflections disabled,
`detect("abc")` returns exactly the span (0,2); after `addWord("abc")` the
trie's longest-terminal rule reports only (0,3) from the same start, so the
span (0,2) disappears and the new match set is not a superset of the old. -/
theorem c5_addword_can_drop_match_spans :
    ((c5Buster.detect (strL "abc")).1.matchList.map
      (fun m => (m.index, m.length))) = [(0, 2)] ∧
    (((c5Buster.addWord (strL "abc") none).detect (strL "abc")).1.matchList.map
      (fun m => (m.index, m.length))) = [(0, 3)] ∧
    ((0, 2) : Nat × Nat) ∉
      (((c5Buster.addWord (strL "abc") none).detect (strL "abc")).1.matchList.map
        (fun m => (m.index, m.length))) := by
  decide

/-- C6, counterexample: on the obfuscated input of spec scenario 5 the
default detector does match from offset 0, but the span has length 7, not 4:
U+200B and U+200D are replaced by spaces and U+2001 decomposes to a space,
and the trie span `[start, last_terminal_end]` covers those separator
positions (as the spec's own trie rule prescribes). -/
theorem c6_invisible_text_match_length_is_seven_not_four :
    ((defaultBuster.detect c6Text).1.matchList.map
      (fun m => (m.index, m.length))) = [(0, 7)] ∧
    ¬ ∃ m ∈ (defaultBuster.detect c6Text).1.matchList,
        m.index = 0 ∧ m.length = 4 := by
  decide

/-- C6, amended: on the input of spec scenario 5 the default detector (with
"shit" in the English word set) returns exactly one match: offset 0,
length 7, covering the separator-substituted positions, the matched text of
the normalized input reading "s h i t". -/
theorem c6_invisible_text_detect_result :
    (defaultBuster.detect c6Text).1
      = { hasProfanity := true,
          matchList := [{ word := strL "s h i t", index := 0, length := 7,
                          language := "en" }] } := by
  decide

/-- C7, counterexample: after `addPhrase("son of a bitch")`, detection on
"you are a son of the a   bitch indeed" never reaches the phrase stage —
the exact stage already matches "bitch" (index 25), and the phrase matcher
runs only when no match was found yet — so no returned span starts at the
token "son" (index 10). -/
theorem c7_phrase_stage_skipped_span_is_bitch_only :
    (c7Buster.detect c7Text).1.hasProfanity = true ∧
    (∀ m ∈ (c7Buster.detect c7Text).1.matchList,
      ¬ (m.index = 10 ∧ m.length = 20)) ∧
    ((c7Buster.detect c7Text).1.matchList.map (fun m => m.index)) = [25] := by
  decide

/-- C7, amended: on spec scenario 6 the detector does report profanity, but
the single returned span is the exact-stage match of "bitch" at index 25,
length 5; the phrase span from "son" to "bitch" is not produced because the
phrase stage is gated on the earlier stages finding nothing. -/
theorem c7_detect_reports_exact_bitch_match :
    (c7Buster.detect c7Text).1
      = { hasProfanity := true,
          matchList := [{ word := strL "bitch", index := 25, length := 5,
                          language := "en" }] } := by
  decide

/-- C8, code bug: `addWord("")` stores the empty normalized word instead of
dropping it — the word set becomes `[""]` — and `detect` then processes the
empty pattern: the fuzzy stage reports a zero-length match of the empty word
at offset 0 on the unrelated input "hello". -/
theorem c8_empty_word_added_and_matched :
    jsMapGet c8Buster.languageWordlists "xx" = some [([] : Str)] ∧
    (c8Buster.detect (strL "hello")).1
      = { hasProfanity := true,
          matchList := [{ word := [], index := 0, length := 0,
                          language := "xx" }] } := by
  decide

/-- C9, counterexample: the constructor performs no validation — building a
detector with `levenshteinDistance = -1` and `phraseMaxSkips = -1` yields an
instance that stores the negative values (no code path of `mergeConfig` or
the constructor throws). -/
theorem c9_negative_config_accepted :
    c9Buster.config.detection.levenshteinDistance = -1 ∧
    c9Buster.config.detection.phraseMaxSkips = some (-1) := by
  decide

/-- C10, counterexample: with auto-detect enabled and only the empty
Esperanto pack loaded, `detect` mutates the instance: the script heuristics
find nothing loaded, so `ensureLoadedForCodes` loads every known pack and
the English word list appears in the instance state after the call. -/
theorem c10_detect_mutates_state_under_autodetect :
    jsMapGet c10Buster.languageWordlists "en" = none ∧
    jsMapGet ((c10Buster.detect (strL "hello")).2).languageWordlists "en"
      = some [strL "shit", strL "bitch"] := by
  decide

/-- C4, amended: `sanitize` is the identity on inputs whose detection is
clean; hence whenever a sanitize output detects as clean, a second pass
leaves it unchanged.  Idempotence fails in general: the counterexample
shows the sanitized output can itself contain a (mask-crossing) match, in
which case a second pass masks further. -/
theorem c4_sanitize_fixpoint_when_output_clean (b : ProfanityBuster)
    (t : Str)
    (h : (((b.sanitize t).2).detect ((b.sanitize t).1)).1.hasProfanity
      = false) :
    (((b.sanitize t).2).sanitize ((b.sanitize t).1)).1 = (b.sanitize t).1 := by
  generalize (b.sanitize t).1 = s1 at *
  generalize (b.sanitize t).2 = b1 at *
  unfold ProfanityBuster.sanitize
  simp [h]

/-- C4, witness for the amended theorem at a concrete clean input. -/
theorem c4_sanitize_fixpoint_witness :
    ((((c4Buster.sanitize (strL "hello")).2).sanitize
      ((c4Buster.sanitize (strL "hello")).1)).1)
      = (c4Buster.sanitize (strL "hello")).1 :=
  c4_sanitize_fixpoint_when_output_clean c4Buster (strL "hello") (by decide)

/-- C10, amended: `detect` and `sanitize` are deterministic state
transformers; when `auto_detect` is disabled (the default) they leave the
instance unchanged, but with `auto_detect` enabled and no loaded word list
the language-selection fallback loads every known pack and mutates the
instance (see the counterexample). -/
theorem c10_detect_pure_without_autodetect (b : ProfanityBuster) (t : Str)
    (h : b.config.languages.autoDetect = false) :
    (b.detect t).2 = b ∧ (b.sanitize t).2 = b := by
  have hd : (b.detect t).2 = b := by
    unfold ProfanityBuster.detect
    simp [h]
  refine ⟨hd, ?_⟩
  simp only [ProfanityBuster.sanitize]
  split
  · exact hd
  · exact hd

/-- C10, witness for the amended theorem on the default detector. -/
theorem c10_detect_pure_witness :
    (defaultBuster.detect (strL "ok")).2 = defaultBuster ∧
    (defaultBuster.sanitize (strL "ok")).2 = defaultBuster :=
  c10_detect_pure_without_autodetect defaultBuster (strL "ok") (by decide)

/-- C9, amended: invalid configurations are accepted silently rather than
rejected: the constructor stores negative values unchanged (see the
counterexample), and they behave as if the corresponding feature were
disabled — with a non-positive `levenshteinDistance` the fuzzy stage
returns its input untouched, and a non-positive `phraseMaxSkips` permits no
stop-word skips (the phrase walk coincides with the zero-skip walk). -/
theorem c9_negative_settings_behave_as_disabled :
    (∀ (b : ProfanityBuster) (tn : Str) (wl : List (String × List Str))
      (found : List MatchEntry),
      b.config.detection.levenshteinDistance ≤ 0 →
      b.fuzzyStage tn wl found = found) ∧
    (∀ (stops : List Str) (hasStop : Bool) (maxSkips : Int)
      (node : PhraseNode) (toks : List Str) (skips : Int) (i : Nat),
      maxSkips ≤ 0 → 0 ≤ skips →
      phraseWalk stops hasStop maxSkips node toks skips i
        = phraseWalk stops hasStop 0 node toks skips i) := by
  constructor
  · intro b tn wl found h
    have hlt : ¬ (0 < b.config.detection.levenshteinDistance) := by omega
    unfold ProfanityBuster.fuzzyStage
    simp [hlt]
  · intro stops hasStop maxSkips node toks skips i hmax hskip
    induction toks generalizing node skips i with
    | nil => rfl
    | cons t rest ih =>
      unfold phraseWalk
      cases hg : jsMapGet node.children t with
      | some next =>
        by_cases hterm : next.isTerminal = true
        · simp [hg, hterm]
        · simp only [hg, hterm]
          simp only [Bool.false_eq_true, if_false]
          exact ih next skips (i + 1) hskip
      | none =>
        have h1 : ¬ (skips < maxSkips) := by omega
        have h2 : ¬ (skips < (0 : Int)) := by omega
        simp [hg, h1, h2]

/-- C9, witness for the amended theorem at concrete negative settings. -/
theorem c9_negative_settings_witness :
    c9Buster.fuzzyStage (strL "x") [] [] = [] ∧
    phraseWalk [] false (-1) PhraseNode.empty [strL "a"] 0 0
      = phraseWalk [] false 0 PhraseNode.empty [strL "a"] 0 0 :=
  ⟨c9_negative_settings_behave_as_disabled.1 c9Buster (strL "x") [] []
      (by decide),
    c9_negative_settings_behave_as_disabled.2 [] false (-1) PhraseNode.empty
      [strL "a"] 0 0 (by decide) (by decide)⟩

/-- In length-preserving mode each input character contributes exactly one
output character: every branch of the per-character loop of
`normalizeForDetection` emits a singleton. -/
theorem normalizeCharStep_length_lp (sd cm si : Bool) (c : Char) :
    (normalizeCharStep sd cm true si c).length = 1 := by
  have h2 : ∀ (l : List Char), l.length = 1 →
      (if (cm && (l.length == 1)) = true then
        (match l.head? with
         | some b =>
           match confusableMap b with
           | some m => [m]
           | none => l
         | none => l)
      else l).length = 1 := by
    intro l hl
    obtain ⟨a, rfl⟩ := List.length_eq_one.mp hl
    split
    · rcases h : confusableMap a with _ | m <;> simp [h]
    · rfl
  have h1 : ∀ (l : List Char), l.length = 1 →
      (if sd = true then
        (match ((l.flatMap nfkdChar).filter (fun d => !isCombiningMark d)).head? with
         | some b => [b]
         | none => l)
      else l).length = 1 := by
    intro l hl
    split
    · rcases hh : ((l.flatMap nfkdChar).filter (fun d => !isCombiningMark d)).head? with _ | b
      · simp [hh, hl]
      · simp [hh]
    · exact hl
  have h0 : (if (si && isInvisibleChar c) = true then [' '] else [c] : List Char).length = 1 := by
    split <;> rfl
  unfold normalizeCharStep
  dsimp only
  simp only [Bool.not_true, Bool.and_false, Bool.false_eq_true, if_false]
  exact h2 _ (h1 _ h0)

/-- A flatMap whose function is singleton-valued on the list is the map of
the singletons' heads. -/
theorem flatMap_singleton_eq_map {α : Type} (f : α → List α) (l : List α)
    (h : ∀ a ∈ l, (f a).length = 1) :
    l.flatMap f = l.map (fun a => (f a).getD 0 a) := by
  induction l with
  | nil => rfl
  | cons a l ih =>
    have ha : (f a).length = 1 := h a (List.mem_cons_self a l)
    obtain ⟨x, hx⟩ := List.length_eq_one.mp ha
    simp only [List.flatMap_cons, List.map_cons, hx]
    rw [ih (fun b hb => h b (List.mem_cons_of_mem a hb))]
    rfl

/-- C2, amended: in length-preserving mode the per-character loop maps each
code point of the case-folded text to exactly one output code point, so
`normalizeForDetection` is a positionwise map of the input — and in
particular has the input's length — provided lowercasing is one-to-one on
the input's code points (`case_sensitive`, or no code point like U+0130
whose lowercase expands).  The counterexample shows the unconditional claim
fails at U+0130. -/
theorem c2_normalize_identity_position_map (input : Str)
    (opts : NormalizationOptions)
    (hlp : opts.lengthPreserving.getD true = true)
    (hcase : opts.caseSensitive = true
      ∨ ∀ c ∈ input, (jsLowerChar c).length = 1) :
    normalizeForDetection input opts
      = input.map (fun c =>
          let lowered := if opts.caseSensitive then c
            else ((jsLowerChar c).getD 0 c)
          (normalizeCharStep (opts.stripDiacritics.getD true)
            opts.confusableMapping true (opts.stripInvisible.getD true)
            lowered).getD 0 lowered) ∧
    (normalizeForDetection input opts).length = input.length := by
  have hmain : normalizeForDetection input opts
      = input.map (fun c =>
          let lowered := if opts.caseSensitive then c
            else ((jsLowerChar c).getD 0 c)
          (normalizeCharStep (opts.stripDiacritics.getD true)
            opts.confusableMapping true (opts.stripInvisible.getD true)
            lowered).getD 0 lowered) := by
    have hlower : (if opts.caseSensitive then input else jsLower input)
        = input.map (fun c => if opts.caseSensitive then c
            else ((jsLowerChar c).getD 0 c)) := by
      rcases hcase with hcs | hone
      · simp [hcs]
      · by_cases hcs : opts.caseSensitive = true
        · simp [hcs]
        · have hb : opts.caseSensitive = false := by
            revert hcs
            cases opts.caseSensitive <;> simp
          simp only [hb, if_false, Bool.false_eq_true]
          exact flatMap_singleton_eq_map jsLowerChar input hone
    unfold normalizeForDetection
    simp only [hlp, Bool.not_true, Bool.and_false, Bool.false_eq_true,
      if_false, Bool.and_true]
    split
    · rw [hlower]
      rw [flatMap_singleton_eq_map _ _
        (fun a _ => normalizeCharStep_length_lp _ _ _ a)]
      rw [List.map_map]
      rfl
    · rename_i hguard
      have hsd : opts.stripDiacritics.getD true = false := by
        revert hguard
        cases opts.stripDiacritics.getD true <;> simp
      have hcm : opts.confusableMapping = false := by
        revert hguard
        cases opts.confusableMapping <;> simp [hsd]
      have hsi : opts.stripInvisible.getD true = false := by
        revert hguard
        cases opts.stripInvisible.getD true <;> simp [hsd, hcm]
      have hstep : ∀ c : Char, normalizeCharStep false false true false c = [c] := by
        intro c
        rfl
      rw [hlower]
      simp only [hsd, hcm, hsi, hstep]
      rfl
  exact ⟨hmain, by rw [hmain]; simp⟩

/-- C2, witness for the amended theorem at a concrete ASCII input. -/
theorem c2_normalize_identity_position_map_witness :
    normalizeForDetection (strL "Sh1t") defaultBuster.normOptions
      = (strL "Sh1t").map (fun c =>
          let lowered := if defaultBuster.normOptions.caseSensitive then c
            else ((jsLowerChar c).getD 0 c)
          (normalizeCharStep (defaultBuster.normOptions.stripDiacritics.getD true)
            defaultBuster.normOptions.confusableMapping true
            (defaultBuster.normOptions.stripInvisible.getD true)
            lowered).getD 0 lowered) ∧
    (normalizeForDetection (strL "Sh1t") defaultBuster.normOptions).length
      = (strL "Sh1t").length :=
  c2_normalize_identity_position_map (strL "Sh1t") defaultBuster.normOptions
    (by decide) (Or.inr (by decide))

/-! ### Infrastructure: map lemmas and trie monotonicity -/

theorem jsMapGet_mem {κ β : Type} [DecidableEq κ] {m : List (κ × β)} {k : κ}
    {v : β} (h : jsMapGet m k = some v) : (k, v) ∈ m := by
  induction m with
  | nil => cases h
  | cons p rest ih =>
    rw [show p = (p.1, p.2) from rfl] at h ⊢
    unfold jsMapGet at h
    by_cases he : p.1 = k
    · subst he
      simp only [if_true] at h
      cases h
      exact List.mem_cons_self _ _
    · simp only [he, if_false] at h
      exact List.mem_cons_of_mem _ (ih h)

theorem trieSub_refl : ∀ (t : TrieNode), TrieSub t t
  | .mk cs b => by
    refine TrieSub.intro (fun h => h) (fun c n h => by rw [h]; rfl) ?_
    intro c n m hn hm
    rw [hn] at hm
    cases hm
    have hmem : (c, n) ∈ cs := jsMapGet_mem hn
    have hsz : sizeOf n < 1 + sizeOf cs + 1 := by
      have h1 := List.sizeOf_lt_of_mem hmem
      have h2 : sizeOf n < sizeOf (c, n) := by
        simp [Prod.mk.sizeOf_spec]
      have hb : sizeOf b = 1 := by cases b <;> rfl
      omega
    exact trieSub_refl n
termination_by t => sizeOf t
decreasing_by
  simp only [TrieNode.mk.sizeOf_spec]
  have hb : sizeOf b = 1 := by cases b <;> rfl
  omega

theorem jsMapGet_jsMapSet_self {κ β : Type} [DecidableEq κ]
    (m : List (κ × β)) (k : κ) (v : β) :
    jsMapGet (jsMapSet m k v) k = some v := by
  induction m with
  | nil => simp [jsMapSet, jsMapGet]
  | cons p rest ih =>
    rw [show p = (p.1, p.2) from rfl]
    unfold jsMapSet
    by_cases he : p.1 = k
    · simp only [he, if_true]
      simp [jsMapGet]
    · simp only [he, if_false]
      unfold jsMapGet
      simp only [he, if_false]
      exact ih

theorem jsMapGet_jsMapSet_ne {κ β : Type} [DecidableEq κ]
    (m : List (κ × β)) (k k' : κ) (v : β) (h : k' ≠ k) :
    jsMapGet (jsMapSet m k v) k' = jsMapGet m k' := by
  induction m with
  | nil =>
    show jsMapGet [(k, v)] k' = jsMapGet ([] : List (κ × β)) k'
    unfold jsMapGet
    have hk : ¬ (k = k') := fun hh => h hh.symm
    simp only [hk, if_false]
    rfl
  | cons p rest ih =>
    rw [show p = (p.1, p.2) from rfl]
    unfold jsMapSet
    by_cases he : p.1 = k
    · simp only [he, if_true]
      unfold jsMapGet
      have hk : ¬ (k = k') := fun hh => h hh.symm
      simp only [hk, if_false, he]
    · simp only [he, if_false]
      unfold jsMapGet
      split
      · rfl
      · exact ih

theorem trieSub_child {t u : TrieNode} {c : Char} {n : TrieNode}
    (h : TrieSub t u) (hn : childGet t.children c = some n) :
    ∃ m, childGet u.children c = some m ∧ TrieSub n m := by
  cases h with
  | intro hterm hsome hchild =>
    cases hm : childGet u.children c with
    | none =>
      have := hsome c n hn
      rw [hm] at this
      cases this
    | some m => exact ⟨m, rfl, hchild c n m hn hm⟩

theorem trieSub_term {t u : TrieNode} (h : TrieSub t u)
    (ht : t.isTerminal = true) : u.isTerminal = true := by
  cases h with
  | intro hterm _ _ => exact hterm ht

theorem trieSub_trans : ∀ {t u v : TrieNode},
    TrieSub t u → TrieSub u v → TrieSub t v
  | .mk cs b, u, v, h1, h2 => by
    refine TrieSub.intro (fun h => trieSub_term h2 (trieSub_term h1 h)) ?_ ?_
    · intro c n hn
      obtain ⟨p, hp, _⟩ := trieSub_child h1 hn
      obtain ⟨q, hq, _⟩ := trieSub_child h2 hp
      rw [hq]
      rfl
    · intro c n m hn hm
      obtain ⟨p, hp, hnp⟩ := trieSub_child h1 hn
      obtain ⟨q, hq, hpq⟩ := trieSub_child h2 hp
      rw [hm] at hq
      cases hq
      have hmem : (c, n) ∈ cs := jsMapGet_mem hn
      have hsz : sizeOf n < 1 + sizeOf cs + 1 := by
        have h1' := List.sizeOf_lt_of_mem hmem
        have h2' : sizeOf n < sizeOf (c, n) := by
          simp [Prod.mk.sizeOf_spec]
        have hb : sizeOf b = 1 := by cases b <;> rfl
        omega
      exact trieSub_trans hnp hpq
termination_by t _ _ _ _ => sizeOf t
decreasing_by
  simp only [TrieNode.mk.sizeOf_spec]
  have hb : sizeOf b = 1 := by cases b <;> rfl
  omega

theorem trieSub_insertGo : ∀ (w : Str) (t : TrieNode),
    TrieSub t (t.insertGo w) := by
  intro w
  induction w with
  | nil =>
    intro t
    refine TrieSub.intro (fun _ => rfl) ?_ ?_
    · intro c n hn
      show (childGet t.children c).isSome = true
      rw [hn]
      rfl
    · intro c n m hn hm
      show TrieSub n m
      rw [show (TrieNode.insertGo t []).children = t.children from rfl] at hm
      rw [hn] at hm
      cases hm
      exact trieSub_refl n
  | cons c cs ih =>
    intro t
    have hch : (t.insertGo (c :: cs)).children
        = childSet t.children c
          ((match childGet t.children c with
            | some n => n
            | none => TrieNode.empty).insertGo cs) := rfl
    have hterm : (t.insertGo (c :: cs)).isTerminal = t.isTerminal := rfl
    refine TrieSub.intro (fun h => by rw [hterm]; exact h) ?_ ?_
    · intro c' n hn
      rw [hch]
      simp only [childGet, childSet] at hn ⊢
      by_cases he : c' = c
      · subst he
        rw [jsMapGet_jsMapSet_self]
        rfl
      · rw [jsMapGet_jsMapSet_ne _ _ _ _ he, hn]
        rfl
    · intro c' n m hn hm
      rw [hch] at hm
      simp only [childGet, childSet] at hn hm
      by_cases he : c' = c
      · subst he
        rw [jsMapGet_jsMapSet_self] at hm
        cases hm
        rw [hn]
        exact ih n
      · rw [jsMapGet_jsMapSet_ne _ _ _ _ he, hn] at hm
        cases hm
        exact trieSub_refl n

theorem trieSub_insert (t : TrieNode) (w : Str) : TrieSub t (t.insert w) := by
  cases w with
  | nil => exact trieSub_refl t
  | cons c cs => exact trieSub_insertGo (c :: cs) t

theorem trieSub_insertAll_right {t u : TrieNode} (h : TrieSub t u)
    (ws : List Str) : TrieSub t (u.insertAll ws) := by
  induction ws generalizing u with
  | nil => exact h
  | cons w ws ih => exact ih (trieSub_trans h (trieSub_insert u w))

theorem trieSub_insertAll (t : TrieNode) (ws : List Str) :
    TrieSub t (t.insertAll ws) :=
  trieSub_insertAll_right (trieSub_refl t) ws

theorem trieWalk_keep (text : Str) (whole ig : Bool) (seps : List Char) :
    ∀ (rest : Str) (t : TrieNode) (j : Nat) (last : Int), last ≠ -1 →
      trieWalk text whole ig seps t j rest last ≠ -1 := by
  intro rest
  induction rest with
  | nil => intro t j last h; exact h
  | cons ch rest ih =>
    intro t j last h
    unfold trieWalk
    split
    · exact ih t (j + 1) last h
    · cases hg : childGet t.children ch with
      | none => exact h
      | some next =>
        apply ih
        have hj : ((j : Int)) ≠ -1 := by omega
        split
        · split
          · split
            · exact h
            · exact hj
          · exact hj
        · exact h

theorem trieWalk_mono (text : Str) (whole ig : Bool) (seps : List Char) :
    ∀ (rest : Str) {t1 t2 : TrieNode} (j : Nat) (last1 last2 : Int),
      TrieSub t1 t2 → (last1 ≠ -1 → last2 ≠ -1) →
      trieWalk text whole ig seps t1 j rest last1 ≠ -1 →
      trieWalk text whole ig seps t2 j rest last2 ≠ -1 := by
  intro rest
  induction rest with
  | nil =>
    intro t1 t2 j l1 l2 hsub himp h1
    exact himp h1
  | cons ch rest ih =>
    intro t1 t2 j l1 l2 hsub himp h1
    unfold trieWalk at h1 ⊢
    by_cases hsep : (ig && decide (ch ∈ seps)) = true
    · rw [if_pos hsep] at h1 ⊢
      exact ih (j + 1) l1 l2 hsub himp h1
    · rw [if_neg hsep] at h1 ⊢
      cases hg1 : childGet t1.children ch with
      | none =>
        rw [hg1] at h1
        cases hg2 : childGet t2.children ch with
        | none => exact himp h1
        | some next2 =>
          apply trieWalk_keep
          have hj : ((j : Int)) ≠ -1 := by omega
          have hl2 : l2 ≠ -1 := himp h1
          split
          · split
            · split
              · exact hl2
              · exact hj
            · exact hj
          · exact hl2
      | some next1 =>
        rw [hg1] at h1
        obtain ⟨next2, hg2, hsub'⟩ := trieSub_child hsub hg1
        rw [hg2]
        have hj : ((j : Int)) ≠ -1 := by omega
        refine ih (j + 1) _ _ hsub' ?_ h1
        intro h'
        by_cases hterm1 : next1.isTerminal = true
        · have hterm2 : next2.isTerminal = true := trieSub_term hsub' hterm1
          rw [if_pos hterm1] at h'
          rw [if_pos hterm2]
          split at h'
          · rename_i hw
            rw [if_pos hw]
            split at h'
            · rename_i hbad
              rw [if_pos hbad]
              exact himp h'
            · rename_i hbad
              rw [if_neg hbad]
              exact hj
          · rename_i hw
            rw [if_neg hw]
            exact hj
        · rw [if_neg hterm1] at h'
          have hl2 : l2 ≠ -1 := himp h'
          split
          · split
            · split
              · exact hl2
              · exact hj
            · exact hj
          · exact hl2

theorem trieScan_mono (text : Str) (whole ig : Bool) (seps : List Char)
    {root1 root2 : TrieNode} (hsub : TrieSub root1 root2) :
    ∀ (suffix : Str) (start : Nat),
      trieScan root1 text whole ig seps suffix start ≠ [] →
      trieScan root2 text whole ig seps suffix start ≠ [] := by
  intro suffix
  induction suffix with
  | nil => intro start h; exact absurd rfl h
  | cons ch rest ih =>
    intro start h1
    unfold trieScan at h1 ⊢
    by_cases hsep : (ig && decide (ch ∈ seps)) = true
    · rw [if_pos hsep] at h1 ⊢
      exact ih (start + 1) h1
    · rw [if_neg hsep] at h1 ⊢
      by_cases hskip : (whole && decide (0 < start)
          && isWordChar (text.getD (start - 1) ' ')) = true
      · rw [if_pos hskip] at h1 ⊢
        exact ih (start + 1) h1
      · rw [if_neg hskip] at h1 ⊢
        by_cases hw1 : trieWalk text whole ig seps root1 start (ch :: rest)
            (-1) ≠ -1
        · have hw2 : trieWalk text whole ig seps root2 start (ch :: rest)
              (-1) ≠ -1 :=
            trieWalk_mono text whole ig seps (ch :: rest) start (-1) (-1)
              hsub (fun hh => hh) hw1
          rw [if_pos hw2]
          simp
        · rw [if_neg hw1] at h1
          have h2 := ih (start + 1) h1
          dsimp only
          split
          · simp
          · exact h2

theorem findAllMatches_mono (text : Str) (whole : Bool) (seps : List Char)
    {root1 root2 : TrieNode} (hsub : TrieSub root1 root2)
    (h : root1.findAllMatches text whole seps ≠ []) :
    root2.findAllMatches text whole seps ≠ [] := by
  unfold TrieNode.findAllMatches at h ⊢
  exact trieScan_mono text whole (decide (seps ≠ [])) seps hsub text 0 h


theorem foldl_fst_extends {α σ : Type} {γ : Type}
    (f : (List σ × γ) → α → (List σ × γ))
    (hf : ∀ st a, ∃ extra, (f st a).1 = st.1 ++ extra) :
    ∀ (l : List α) (st : List σ × γ),
      ∃ extra, (l.foldl f st).1 = st.1 ++ extra := by
  intro l
  induction l with
  | nil => intro st; exact ⟨[], (List.append_nil _).symm⟩
  | cons a l ih =>
    intro st
    obtain ⟨e1, he1⟩ := hf st a
    obtain ⟨e2, he2⟩ := ih (f st a)
    exact ⟨e1 ++ e2, by rw [List.foldl_cons, he2, he1, List.append_assoc]⟩

theorem inflOccStep_extends (word : Str) (code : String)
    (st : List MatchEntry × List (Nat × Nat)) (index : Nat) :
    ∃ extra, (inflOccStep word code st index).1 = st.1 ++ extra := by
  unfold inflOccStep
  dsimp only
  split
  · exact ⟨[], (List.append_nil _).symm⟩
  · exact ⟨_, rfl⟩

theorem inflWordStep_extends (b : ProfanityBuster) (tn : Str)
    (code : String) (st : List MatchEntry × List (Nat × Nat)) (word : Str) :
    ∃ extra, (inflWordStep b tn code st word).1 = st.1 ++ extra := by
  unfold inflWordStep
  exact foldl_fst_extends _ (inflOccStep_extends word code) _ st

theorem inflEntryStep_extends (b : ProfanityBuster) (tn : Str)
    (st : List MatchEntry × List (Nat × Nat)) (p : String × List Str) :
    ∃ extra, (inflEntryStep b tn st p).1 = st.1 ++ extra := by
  unfold inflEntryStep
  exact foldl_fst_extends _ (inflWordStep_extends b tn p.1) _ st

theorem inflStage_extends (b : ProfanityBuster) (tn : Str)
    (wl : List (String × List Str)) (ms0 : List MatchEntry) :
    ∃ extra, b.inflStage tn wl ms0 = ms0 ++ extra := by
  unfold ProfanityBuster.inflStage
  split
  · exact foldl_fst_extends _ (inflEntryStep_extends b tn) wl _
  · exact ⟨[], (List.append_nil _).symm⟩

theorem phraseStage_extends (b : ProfanityBuster) (tn : Str)
    (found : List MatchEntry) :
    ∃ extra, b.phraseStage tn found = found ++ extra := by
  unfold ProfanityBuster.phraseStage
  split
  · dsimp only
    split
    · exact ⟨[], (List.append_nil _).symm⟩
    · exact ⟨_, rfl⟩
  · exact ⟨[], (List.append_nil _).symm⟩

theorem fuzzyGo_extends (b : ProfanityBuster) (tn : Str)
    (found : List MatchEntry) :
    ∀ wl, ∃ extra, fuzzyGo b tn found wl = found ++ extra := by
  intro wl
  induction wl with
  | nil => exact ⟨[], (List.append_nil _).symm⟩
  | cons p rest ih =>
    rw [show p = (p.1, p.2) from rfl]
    unfold fuzzyGo
    cases h : fuzzyFirstWord b tn p.2 with
    | none => exact ih
    | some pr => exact ⟨_, rfl⟩

theorem fuzzyStage_extends (b : ProfanityBuster) (tn : Str)
    (wl : List (String × List Str)) (found : List MatchEntry) :
    ∃ extra, b.fuzzyStage tn wl found = found ++ extra := by
  unfold ProfanityBuster.fuzzyStage
  split
  · exact fuzzyGo_extends b tn found wl
  · exact ⟨[], (List.append_nil _).symm⟩

theorem inflStage_ne_nil (b : ProfanityBuster) (tn : Str)
    (wl : List (String × List Str)) {ms0 : List MatchEntry}
    (h : ms0 ≠ []) : b.inflStage tn wl ms0 ≠ [] := by
  obtain ⟨e, he⟩ := inflStage_extends b tn wl ms0
  rw [he]
  simp [h]

theorem phraseStage_ne_nil (b : ProfanityBuster) (tn : Str)
    {found : List MatchEntry} (h : found ≠ []) :
    b.phraseStage tn found ≠ [] := by
  obtain ⟨e, he⟩ := phraseStage_extends b tn found
  rw [he]
  simp [h]

theorem fuzzyStage_ne_nil (b : ProfanityBuster) (tn : Str)
    (wl : List (String × List Str)) {found : List MatchEntry}
    (h : found ≠ []) : b.fuzzyStage tn wl found ≠ [] := by
  obtain ⟨e, he⟩ := fuzzyStage_extends b tn wl found
  rw [he]
  simp [h]

theorem mem_jsMapSet_elim {κ β : Type} [DecidableEq κ]
    {m : List (κ × β)} {k : κ} {v : β} {p : κ × β}
    (h : p ∈ jsMapSet m k v) : p = (k, v) ∨ p ∈ m := by
  induction m with
  | nil =>
    unfold jsMapSet at h
    rcases List.mem_singleton.mp h with h
    exact Or.inl h
  | cons q rest ih =>
    rw [show q = (q.1, q.2) from rfl] at h
    unfold jsMapSet at h
    split at h
    · rcases List.mem_cons.mp h with h | h
      · exact Or.inl h
      · exact Or.inr (List.mem_cons_of_mem _ h)
    · rcases List.mem_cons.mp h with h | h
      · exact Or.inr (by rw [h]; exact List.mem_cons_self _ _)
      · rcases ih h with h | h
        · exact Or.inl h
        · exact Or.inr (List.mem_cons_of_mem _ h)

theorem self_mem_jsMapSet {κ β : Type} [DecidableEq κ]
    (m : List (κ × β)) (k : κ) (v : β) : (k, v) ∈ jsMapSet m k v := by
  induction m with
  | nil => exact List.mem_singleton.mpr rfl
  | cons q rest ih =>
    rw [show q = (q.1, q.2) from rfl]
    unfold jsMapSet
    split
    · exact List.mem_cons_self _ _
    · exact List.mem_cons_of_mem _ ih

theorem exists_mem_jsMapSet {κ β : Type} [DecidableEq κ]
    {m : List (κ × β)} {k₀ : κ} {v₀ : β} (h : (k₀, v₀) ∈ m)
    (k : κ) (v : β) : ∃ v', (k₀, v') ∈ jsMapSet m k v := by
  by_cases he : k₀ = k
  · subst he
    exact ⟨v, self_mem_jsMapSet m k₀ v⟩
  · induction m with
    | nil => cases h
    | cons q rest ih =>
      rw [show q = (q.1, q.2) from rfl]
      unfold jsMapSet
      split
      · rcases List.mem_cons.mp h with hq | hq
        · rename_i hqk
          exfalso
          apply he
          rw [show k₀ = (k₀, v₀).1 from rfl, hq]
          exact hqk
        · exact ⟨v₀, List.mem_cons_of_mem _ hq⟩
      · rcases List.mem_cons.mp h with hq | hq
        · exact ⟨v₀, by rw [hq]; exact List.mem_cons_self _ _⟩
        · obtain ⟨v', hv'⟩ := ih hq
          exact ⟨v', List.mem_cons_of_mem _ hv'⟩

theorem jsSetAdd_mem_of_mem {α : Type} [DecidableEq α] {l : List α} {a : α}
    (h : a ∈ l) (a' : α) : a ∈ jsSetAdd l a' := by
  unfold jsSetAdd
  split
  · exact h
  · exact List.mem_append_left _ h

theorem jsSetAdd_length_pos {α : Type} [DecidableEq α] (l : List α)
    (a : α) : 0 < (jsSetAdd l a).length := by
  unfold jsSetAdd
  split
  · rename_i h
    exact List.length_pos.mpr (List.ne_nil_of_mem h)
  · simp

theorem collect_mem_fwd (b : ProfanityBuster) (codes : List String) :
    ∀ p ∈ b.collectWordlistsForCodes codes,
      jsMapGet b.languageWordlists p.1 = some p.2 ∧ 0 < p.2.length
        ∧ p.1 ∈ codes := by
  unfold ProfanityBuster.collectWordlistsForCodes
  suffices hgen : ∀ (codes : List String) (acc : List (String × List Str)),
      (∀ p ∈ acc, jsMapGet b.languageWordlists p.1 = some p.2
        ∧ 0 < p.2.length) →
      ∀ p ∈ codes.foldl (fun active code =>
          match jsMapGet b.languageWordlists code with
          | some list => if 0 < list.length then jsMapSet active code list
              else active
          | none => active) acc,
        jsMapGet b.languageWordlists p.1 = some p.2 ∧ 0 < p.2.length
          ∧ (p ∈ acc ∨ p.1 ∈ codes) by
    intro p hp
    have := hgen codes [] (by intro p hp; cases hp) p hp
    rcases this with ⟨h1, h2, h3 | h3⟩
    · cases h3
    · exact ⟨h1, h2, h3⟩
  intro codes
  induction codes with
  | nil =>
    intro acc hacc p hp
    obtain ⟨h1, h2⟩ := hacc p hp
    exact ⟨h1, h2, Or.inl hp⟩
  | cons code rest ih =>
    intro acc hacc p hp
    rw [List.foldl_cons] at hp
    cases hg : jsMapGet b.languageWordlists code with
    | none =>
      simp only [hg] at hp
      obtain ⟨h1, h2, h3⟩ := ih acc hacc p hp
      refine ⟨h1, h2, ?_⟩
      rcases h3 with h3 | h3
      · exact Or.inl h3
      · exact Or.inr (List.mem_cons_of_mem _ h3)
    | some list =>
      simp only [hg] at hp
      by_cases hlen : 0 < list.length
      · rw [if_pos hlen] at hp
        have hacc2 : ∀ q ∈ jsMapSet acc code list,
            jsMapGet b.languageWordlists q.1 = some q.2 ∧ 0 < q.2.length := by
          intro q hq
          rcases mem_jsMapSet_elim hq with hq | hq
          · rw [hq]
            exact ⟨hg, hlen⟩
          · exact hacc q hq
        obtain ⟨h1, h2, h3⟩ := ih (jsMapSet acc code list) hacc2 p hp
        refine ⟨h1, h2, ?_⟩
        rcases h3 with h3 | h3
        · rcases mem_jsMapSet_elim h3 with h3 | h3
          · refine Or.inr ?_
            rw [show p.1 = (p.1, p.2).1 from rfl, h3]
            exact List.mem_cons_self _ _
          · exact Or.inl h3
        · exact Or.inr (List.mem_cons_of_mem _ h3)
      · rw [if_neg hlen] at hp
        obtain ⟨h1, h2, h3⟩ := ih acc hacc p hp
        refine ⟨h1, h2, ?_⟩
        rcases h3 with h3 | h3
        · exact Or.inl h3
        · exact Or.inr (List.mem_cons_of_mem _ h3)

theorem collect_keep (b : ProfanityBuster) (c : String) :
    ∀ (codes : List String) (acc : List (String × List Str)) (v₀ : List Str),
      (c, v₀) ∈ acc →
      ∃ v, (c, v) ∈ codes.foldl (fun active code =>
          match jsMapGet b.languageWordlists code with
          | some list => if 0 < list.length then jsMapSet active code list
              else active
          | none => active) acc := by
  intro codes
  induction codes with
  | nil => intro acc v₀ hv; exact ⟨v₀, hv⟩
  | cons code rest ih =>
    intro acc v₀ hv
    rw [List.foldl_cons]
    cases hg : jsMapGet b.languageWordlists code with
    | none =>
      simp only [hg]
      exact ih acc v₀ hv
    | some list =>
      simp only [hg]
      by_cases hl : 0 < list.length
      · rw [if_pos hl]
        obtain ⟨v₁, hv₁⟩ := exists_mem_jsMapSet hv code list
        exact ih _ v₁ hv₁
      · rw [if_neg hl]
        exact ih acc v₀ hv

theorem collect_mem_bwd (b : ProfanityBuster) (codes : List String)
    (c : String) (ws : List Str) (hc : c ∈ codes)
    (hget : jsMapGet b.languageWordlists c = some ws)
    (hlen : 0 < ws.length) :
    ∃ v, (c, v) ∈ b.collectWordlistsForCodes codes := by
  unfold ProfanityBuster.collectWordlistsForCodes
  suffices hgen : ∀ (codes : List String) (acc : List (String × List Str)),
      c ∈ codes →
      ∃ v, (c, v) ∈ codes.foldl (fun active code =>
          match jsMapGet b.languageWordlists code with
          | some list => if 0 < list.length then jsMapSet active code list
              else active
          | none => active) acc by
    exact hgen codes [] hc
  intro codes
  induction codes with
  | nil => intro acc hce; cases hce
  | cons code rest ih =>
    intro acc hce
    rw [List.foldl_cons]
    rcases List.mem_cons.mp hce with hce | hce
    · subst hce
      rw [hget]
      simp only
      rw [if_pos hlen]
      exact collect_keep b c rest _ ws (self_mem_jsMapSet acc c ws)
    · cases hg : jsMapGet b.languageWordlists code with
      | none =>
        simp only [hg]
        exact ih acc hce
      | some list =>
        simp only [hg]
        by_cases hl : 0 < list.length
        · rw [if_pos hl]
          exact ih _ hce
        · rw [if_neg hl]
          exact ih acc hce

theorem exactStage_ne_nil_iff (b : ProfanityBuster) (tn : Str)
    (halgo : b.config.detection.algorithm.getD .trie = .trie) :
    ∀ wl : List (String × List Str),
      b.exactStage tn wl ≠ [] ↔
        ∃ p ∈ wl, ∃ tr, jsMapGet b.languageTries p.1 = some tr ∧
          tr.findAllMatches tn b.config.detection.wholeWordsOnly
            (b.config.detection.ignoreSeparators.getD []) ≠ [] := by
  intro wl
  induction wl with
  | nil =>
    unfold ProfanityBuster.exactStage
    simp
  | cons p rest ih =>
    rw [show p = (p.1, p.2) from rfl]
    unfold ProfanityBuster.exactStage
    dsimp only
    rw [halgo]
    cases hg : jsMapGet b.languageTries p.1 with
    | none =>
      simp only [hg]
      rw [if_neg (by simp)]
      rw [ih]
      constructor
      · rintro ⟨q, hq, tr, htr, hfa⟩
        exact ⟨q, List.mem_cons_of_mem _ hq, tr, htr, hfa⟩
      · rintro ⟨q, hq, tr, htr, hfa⟩
        rcases List.mem_cons.mp hq with hq | hq
        · exfalso
          rw [show q.1 = p.1 from by rw [hq]] at htr
          rw [hg] at htr
          cases htr
        · exact ⟨q, hq, tr, htr, hfa⟩
    | some tr =>
      simp only [hg]
      by_cases hfa : tr.findAllMatches tn b.config.detection.wholeWordsOnly
          (b.config.detection.ignoreSeparators.getD []) = []
      · rw [hfa]
        rw [if_neg (by simp)]
        rw [ih]
        constructor
        · rintro ⟨q, hq, tr', htr', hfa'⟩
          exact ⟨q, List.mem_cons_of_mem _ hq, tr', htr', hfa'⟩
        · rintro ⟨q, hq, tr', htr', hfa'⟩
          rcases List.mem_cons.mp hq with hq | hq
          · exfalso
            rw [show q.1 = p.1 from by rw [hq]] at htr'
            rw [hg] at htr'
            cases htr'
            exact hfa' hfa
          · exact ⟨q, hq, tr', htr', hfa'⟩
      · rw [if_pos (by
          simp only [List.length_map]
          exact List.length_pos.mpr hfa)]
        constructor
        · intro _
          exact ⟨(p.1, p.2), List.mem_cons_self _ _, tr, hg, hfa⟩
        · intro _
          simp only [ne_eq, List.map_eq_nil_iff]
          exact hfa

theorem inflWordStep_of_occ_nil {b : ProfanityBuster} {tn : Str}
    {code : String} {word : Str}
    (h : b.findWordOccurrencesWithInflections tn word
      (b.config.detection.inflectionSuffixes.getD [])
      b.config.detection.wholeWordsOnly = [])
    (st : List MatchEntry × List (Nat × Nat)) :
    inflWordStep b tn code st word = st := by
  unfold inflWordStep
  rw [h]
  rfl

theorem inflOcc_fold_ne_nil (word : Str) (code : String)
    {occ : List Nat} (hocc : occ ≠ [])
    (st : List MatchEntry × List (Nat × Nat)) (h2 : st.2 = []) :
    (occ.foldl (inflOccStep word code) st).1 ≠ [] := by
  cases occ with
  | nil => exact absurd rfl hocc
  | cons i rest =>
    rw [List.foldl_cons]
    have hstep : (inflOccStep word code st i).1 ≠ [] := by
      unfold inflOccStep
      dsimp only
      rw [h2]
      rw [if_neg (by simp)]
      simp
    obtain ⟨e, he⟩ :=
      foldl_fst_extends _ (inflOccStep_extends word code) rest
        (inflOccStep word code st i)
    rw [he]
    simp [hstep]

theorem inflWords_fold_ne_nil (b : ProfanityBuster) (tn : Str)
    (code : String) :
    ∀ (ws : List Str) (st : List MatchEntry × List (Nat × Nat)),
      st.2 = [] →
      (∃ w ∈ ws, b.findWordOccurrencesWithInflections tn w
        (b.config.detection.inflectionSuffixes.getD [])
        b.config.detection.wholeWordsOnly ≠ []) →
      (ws.foldl (inflWordStep b tn code) st).1 ≠ [] := by
  intro ws
  induction ws with
  | nil =>
    rintro st _ ⟨w, hw, _⟩
    cases hw
  | cons w0 ws ih =>
    rintro st h2 ⟨w, hw, hocc⟩
    rw [List.foldl_cons]
    by_cases h0 : b.findWordOccurrencesWithInflections tn w0
        (b.config.detection.inflectionSuffixes.getD [])
        b.config.detection.wholeWordsOnly = []
    · rw [inflWordStep_of_occ_nil h0]
      rcases List.mem_cons.mp hw with hww | hww
      · subst hww
        exact absurd h0 hocc
      · exact ih st h2 ⟨w, hww, hocc⟩
    · have hne : (inflWordStep b tn code st w0).1 ≠ [] := by
        unfold inflWordStep
        exact inflOcc_fold_ne_nil w0 code h0 st h2
      obtain ⟨e, he⟩ :=
        foldl_fst_extends _ (inflWordStep_extends b tn code) ws
          (inflWordStep b tn code st w0)
      rw [he]
      simp [hne]

theorem inflWords_fold_id (b : ProfanityBuster) (tn : Str) (code : String) :
    ∀ (ws : List Str) (st : List MatchEntry × List (Nat × Nat)),
      (∀ w ∈ ws, b.findWordOccurrencesWithInflections tn w
        (b.config.detection.inflectionSuffixes.getD [])
        b.config.detection.wholeWordsOnly = []) →
      ws.foldl (inflWordStep b tn code) st = st := by
  intro ws
  induction ws with
  | nil => intro st _; rfl
  | cons w ws ih =>
    intro st h
    rw [List.foldl_cons,
      inflWordStep_of_occ_nil (h w (List.mem_cons_self _ _)) st]
    exact ih st (fun w' hw' => h w' (List.mem_cons_of_mem _ hw'))

theorem inflEntryStep_of_all_nil {b : ProfanityBuster} {tn : Str}
    {p : String × List Str}
    (h : ∀ w ∈ p.2, b.findWordOccurrencesWithInflections tn w
      (b.config.detection.inflectionSuffixes.getD [])
      b.config.detection.wholeWordsOnly = [])
    (st : List MatchEntry × List (Nat × Nat)) :
    inflEntryStep b tn st p = st := by
  unfold inflEntryStep
  exact inflWords_fold_id b tn p.1 p.2 st h

theorem inflStage_empty_build (b : ProfanityBuster) (tn : Str)
    (wl : List (String × List Str))
    (hflag : b.config.detection.enableInflections.getD true = true)
    (hw : ∃ p ∈ wl, ∃ w ∈ p.2, b.findWordOccurrencesWithInflections tn w
      (b.config.detection.inflectionSuffixes.getD [])
      b.config.detection.wholeWordsOnly ≠ []) :
    b.inflStage tn wl [] ≠ [] := by
  unfold ProfanityBuster.inflStage
  rw [if_pos hflag]
  dsimp only
  suffices hgen : ∀ (wl : List (String × List Str))
      (st : List MatchEntry × List (Nat × Nat)), st.2 = [] →
      (∃ p ∈ wl, ∃ w ∈ p.2, b.findWordOccurrencesWithInflections tn w
        (b.config.detection.inflectionSuffixes.getD [])
        b.config.detection.wholeWordsOnly ≠ []) →
      (wl.foldl (inflEntryStep b tn) st).1 ≠ [] by
    exact hgen wl ([], []) rfl hw
  intro wl
  induction wl with
  | nil =>
    rintro st _ ⟨p, hp, _⟩
    cases hp
  | cons p0 wl ih =>
    rintro st h2 ⟨p, hp, w, hwmem, hocc⟩
    rw [List.foldl_cons]
    by_cases h0 : ∀ w' ∈ p0.2, b.findWordOccurrencesWithInflections tn w'
        (b.config.detection.inflectionSuffixes.getD [])
        b.config.detection.wholeWordsOnly = []
    · rw [inflEntryStep_of_all_nil h0 st]
      rcases List.mem_cons.mp hp with hpp | hpp
      · subst hpp
        exact absurd (h0 w hwmem) hocc
      · exact ih st h2 ⟨p, hpp, w, hwmem, hocc⟩
    · push_neg at h0
      obtain ⟨w0, hw0, hocc0⟩ := h0
      have hne : (inflEntryStep b tn st p0).1 ≠ [] := by
        unfold inflEntryStep
        exact inflWords_fold_ne_nil b tn p0.1 p0.2 st h2 ⟨w0, hw0, hocc0⟩
      obtain ⟨e, he⟩ :=
        foldl_fst_extends _ (inflEntryStep_extends b tn) wl
          (inflEntryStep b tn st p0)
      rw [he]
      simp [hne]

theorem inflStage_empty_extract (b : ProfanityBuster) (tn : Str)
    (wl : List (String × List Str))
    (h : b.inflStage tn wl [] ≠ []) :
    ∃ p ∈ wl, ∃ w ∈ p.2, b.findWordOccurrencesWithInflections tn w
      (b.config.detection.inflectionSuffixes.getD [])
      b.config.detection.wholeWordsOnly ≠ [] := by
  by_contra hno
  push_neg at hno
  apply h
  have hgen : ∀ (wlx : List (String × List Str)),
      (∀ p ∈ wlx, ∀ w ∈ p.2, b.findWordOccurrencesWithInflections tn w
        (b.config.detection.inflectionSuffixes.getD [])
        b.config.detection.wholeWordsOnly = []) →
      List.foldl (inflEntryStep b tn) (([], []) :
        List MatchEntry × List (Nat × Nat)) wlx = ([], []) := by
    intro wlx
    induction wlx with
    | nil => intro _; rfl
    | cons p wlx ih =>
      intro hno2
      rw [List.foldl_cons,
        inflEntryStep_of_all_nil
          (fun w hw => hno2 p (List.mem_cons_self _ _) w hw) ([], [])]
      exact ih (fun q hq w hw => hno2 q (List.mem_cons_of_mem _ hq) w hw)
  unfold ProfanityBuster.inflStage
  split
  · dsimp only
    simp only [List.map_nil]
    rw [hgen wl hno]
  · rfl

theorem fuzzyFirstWord_extract (b : ProfanityBuster) (tn : Str) :
    ∀ (ws : List Str), fuzzyFirstWord b tn ws ≠ none →
      ∃ w ∈ ws, b.findApproximateOccurrence tn w (b.scaledMaxDistance w)
        b.config.detection.wholeWordsOnly ≠ -1 := by
  intro ws
  induction ws with
  | nil => intro h; exact absurd rfl h
  | cons w ws ih =>
    intro h
    unfold fuzzyFirstWord at h
    dsimp only at h
    split at h
    · rename_i hidx
      exact ⟨w, List.mem_cons_self _ _, hidx⟩
    · rename_i hidx
      obtain ⟨w', hw', hok⟩ := ih h
      exact ⟨w', List.mem_cons_of_mem _ hw', hok⟩

theorem fuzzyFirstWord_build (b : ProfanityBuster) (tn : Str) :
    ∀ (ws : List Str),
      (∃ w ∈ ws, b.findApproximateOccurrence tn w (b.scaledMaxDistance w)
        b.config.detection.wholeWordsOnly ≠ -1) →
      fuzzyFirstWord b tn ws ≠ none := by
  intro ws
  induction ws with
  | nil =>
    rintro ⟨w, hw, _⟩
    cases hw
  | cons w0 ws ih =>
    rintro ⟨w, hw, hok⟩
    unfold fuzzyFirstWord
    dsimp only
    split
    · simp
    · rename_i hidx
      rcases List.mem_cons.mp hw with hww | hww
      · subst hww
        exact absurd hok hidx
      · exact ih ⟨w, hww, hok⟩

theorem fuzzyGo_empty_extract (b : ProfanityBuster) (tn : Str) :
    ∀ (wl : List (String × List Str)), fuzzyGo b tn [] wl ≠ [] →
      ∃ p ∈ wl, fuzzyFirstWord b tn p.2 ≠ none := by
  intro wl
  induction wl with
  | nil => intro h; exact absurd rfl h
  | cons p wl ih =>
    intro h
    rw [show p = (p.1, p.2) from rfl] at h
    unfold fuzzyGo at h
    split at h
    · rename_i pr heq
      exact ⟨p, List.mem_cons_self _ _, by rw [heq]; simp⟩
    · obtain ⟨q, hq, hne⟩ := ih h
      exact ⟨q, List.mem_cons_of_mem _ hq, hne⟩

theorem fuzzyGo_empty_build (b : ProfanityBuster) (tn : Str) :
    ∀ (wl : List (String × List Str)),
      (∃ p ∈ wl, fuzzyFirstWord b tn p.2 ≠ none) →
      fuzzyGo b tn [] wl ≠ [] := by
  intro wl
  induction wl with
  | nil =>
    rintro ⟨p, hp, _⟩
    cases hp
  | cons p0 wl ih =>
    rintro ⟨p, hp, hne⟩
    rw [show p0 = (p0.1, p0.2) from rfl]
    unfold fuzzyGo
    split
    · simp
    · rename_i heq
      rcases List.mem_cons.mp hp with hpp | hpp
      · subst hpp
        exact absurd heq hne
      · exact ih ⟨p, hpp, hne⟩

theorem fuzzyStage_empty_extract (b : ProfanityBuster) (tn : Str)
    (wl : List (String × List Str)) (h : b.fuzzyStage tn wl [] ≠ []) :
    0 < b.config.detection.levenshteinDistance ∧
      ∃ p ∈ wl, fuzzyFirstWord b tn p.2 ≠ none := by
  unfold ProfanityBuster.fuzzyStage at h
  split at h
  · rename_i hcond
    rw [Bool.and_eq_true] at hcond
    exact ⟨of_decide_eq_true hcond.2, fuzzyGo_empty_extract b tn wl h⟩
  · exact absurd rfl h

theorem fuzzyStage_empty_build (b : ProfanityBuster) (tn : Str)
    (wl : List (String × List Str))
    (hld : 0 < b.config.detection.levenshteinDistance)
    (hw : ∃ p ∈ wl, fuzzyFirstWord b tn p.2 ≠ none) :
    b.fuzzyStage tn wl [] ≠ [] := by
  unfold ProfanityBuster.fuzzyStage
  rw [if_pos (by simp [hld])]
  exact fuzzyGo_empty_build b tn wl hw

theorem rebuild_config (b : ProfanityBuster) (code : String) :
    (b.rebuildMatcherForLanguage code).config = b.config := by
  unfold ProfanityBuster.rebuildMatcherForLanguage
  dsimp only
  split <;> rfl

theorem rebuild_wordlists (b : ProfanityBuster) (code : String) :
    (b.rebuildMatcherForLanguage code).languageWordlists
      = b.languageWordlists := by
  unfold ProfanityBuster.rebuildMatcherForLanguage
  dsimp only
  split <;> rfl

theorem rebuild_phraseTrie (b : ProfanityBuster) (code : String) :
    (b.rebuildMatcherForLanguage code).phraseTrie = b.phraseTrie := by
  unfold ProfanityBuster.rebuildMatcherForLanguage
  dsimp only
  split <;> rfl

theorem rebuild_phraseList (b : ProfanityBuster) (code : String) :
    (b.rebuildMatcherForLanguage code).phraseList = b.phraseList := by
  unfold ProfanityBuster.rebuildMatcherForLanguage
  dsimp only
  split <;> rfl

theorem addWord_config (b : ProfanityBuster) (w : Str)
    (lang : Option String) : (b.addWord w lang).config = b.config := by
  unfold ProfanityBuster.addWord
  dsimp only
  rw [rebuild_config]

theorem addWord_phraseTrie (b : ProfanityBuster) (w : Str)
    (lang : Option String) :
    (b.addWord w lang).phraseTrie = b.phraseTrie := by
  unfold ProfanityBuster.addWord
  dsimp only
  rw [rebuild_phraseTrie]

theorem addWord_phraseList (b : ProfanityBuster) (w : Str)
    (lang : Option String) :
    (b.addWord w lang).phraseList = b.phraseList := by
  unfold ProfanityBuster.addWord
  dsimp only
  rw [rebuild_phraseList]

theorem addWord_wordlists (b : ProfanityBuster) (w : Str)
    (lang : Option String) :
    (b.addWord w lang).languageWordlists
      = jsMapSet b.languageWordlists (lang.getD b.config.languages.fallback)
          (jsSetAdd ((jsMapGet b.languageWordlists
              (lang.getD b.config.languages.fallback)).getD [])
            (b.normalizeWordM w)) := by
  unfold ProfanityBuster.addWord
  dsimp only
  rw [rebuild_wordlists]

theorem buildTrieForWords_wls (b : ProfanityBuster)
    (X : List (String × List Str)) (ws : Option (List Str)) :
    buildTrieForWords { b with languageWordlists := X } ws
      = buildTrieForWords b ws := by
  rfl

theorem config_update_wls (b : ProfanityBuster)
    (X : List (String × List Str)) :
    ProfanityBuster.config { b with languageWordlists := X } = b.config := rfl

theorem addWord_tries (b : ProfanityBuster) (w : Str) (lang : Option String)
    (halgo : b.config.detection.algorithm.getD .trie = .trie) :
    (b.addWord w lang).languageTries
      = jsMapSet b.languageTries (lang.getD b.config.languages.fallback)
          (buildTrieForWords b (some (jsSetAdd
            ((jsMapGet b.languageWordlists
              (lang.getD b.config.languages.fallback)).getD [])
            (b.normalizeWordM w)))) := by
  unfold ProfanityBuster.addWord
  dsimp only
  unfold ProfanityBuster.rebuildMatcherForLanguage
  dsimp only
  rw [config_update_wls]
  rw [halgo]
  dsimp only
  rw [jsMapGet_jsMapSet_self]
  rw [buildTrieForWords_wls]

theorem findApprox_congr {b b2 : ProfanityBuster} (hc : b2.config = b.config)
    (text word : Str) (maxD : Int) (whole : Bool) :
    b2.findApproximateOccurrence text word maxD whole
      = b.findApproximateOccurrence text word maxD whole := by
  unfold ProfanityBuster.findApproximateOccurrence
  rw [hc]

theorem scaledMaxDistance_congr {b b2 : ProfanityBuster}
    (hc : b2.config = b.config) (word : Str) :
    b2.scaledMaxDistance word = b.scaledMaxDistance word := by
  unfold ProfanityBuster.scaledMaxDistance
  rw [hc]

theorem fuzzyFirstWord_congr {b b2 : ProfanityBuster}
    (hc : b2.config = b.config) (tn : Str) :
    ∀ ws : List Str, fuzzyFirstWord b2 tn ws = fuzzyFirstWord b tn ws := by
  intro ws
  induction ws with
  | nil => rfl
  | cons w ws ih =>
    unfold fuzzyFirstWord
    rw [findApprox_congr hc, scaledMaxDistance_congr hc, hc, ih]

theorem phraseStage_congr {b b2 : ProfanityBuster} (hc : b2.config = b.config)
    (ht : b2.phraseTrie = b.phraseTrie) (hl : b2.phraseList = b.phraseList)
    (tn : Str) (found : List MatchEntry) :
    b2.phraseStage tn found = b.phraseStage tn found := by
  unfold ProfanityBuster.phraseStage
  rw [hc, ht, hl]

theorem findWordOcc_congr (b b2 : ProfanityBuster) (tn word : Str)
    (suffixes : List Str) (whole : Bool) :
    b2.findWordOccurrencesWithInflections tn word suffixes whole
      = b.findWordOccurrencesWithInflections tn word suffixes whole := rfl

theorem normOptions_congr {b b2 : ProfanityBuster}
    (hc : b2.config = b.config) : b2.normOptions = b.normOptions := by
  unfold ProfanityBuster.normOptions
  rw [hc]

theorem detect_result_no_auto (b : ProfanityBuster) (t : Str)
    (hauto : b.config.languages.autoDetect = false) :
    ((b.detect t).1.hasProfanity = true ↔
      b.fuzzyStage (normalizeForDetection t b.normOptions)
        (b.collectWordlistsForCodes b.config.languages.enabled)
        (b.phraseStage (normalizeForDetection t b.normOptions)
          (b.inflStage (normalizeForDetection t b.normOptions)
            (b.collectWordlistsForCodes b.config.languages.enabled)
            (b.exactStage (normalizeForDetection t b.normOptions)
              (b.collectWordlistsForCodes b.config.languages.enabled)))) ≠ []) := by
  unfold ProfanityBuster.detect
  simp only [hauto, Bool.false_eq_true, if_false]
  rw [decide_eq_true_eq]
  exact List.length_pos

theorem inflStage_flag_false (b : ProfanityBuster) (tn : Str)
    (wl : List (String × List Str)) (found : List MatchEntry)
    (hflag : b.config.detection.enableInflections.getD true = false) :
    b.inflStage tn wl found = found := by
  unfold ProfanityBuster.inflStage
  rw [if_neg (by rw [hflag]; exact Bool.false_ne_true)]

theorem addWord_wordlist_entry (b : ProfanityBuster) (w : Str)
    (lang : Option String) (c : String) (ws : List Str)
    (hp : (c, ws) ∈ b.collectWordlistsForCodes b.config.languages.enabled) :
    ∃ v, (c, v) ∈ (b.addWord w lang).collectWordlistsForCodes
        ((b.addWord w lang).config.languages.enabled) ∧
      (∀ x ∈ ws, x ∈ v) ∧
      jsMapGet (b.addWord w lang).languageWordlists c = some v := by
  obtain ⟨hget, hlen, hcode⟩ := collect_mem_fwd b _ (c, ws) hp
  have hwls := addWord_wordlists b w lang
  have henabled : (b.addWord w lang).config.languages.enabled
      = b.config.languages.enabled := by rw [addWord_config]
  by_cases hcL : c = lang.getD b.config.languages.fallback
  · have hget2 : jsMapGet (b.addWord w lang).languageWordlists c
        = some (jsSetAdd ws (b.normalizeWordM w)) := by
      rw [hwls, hcL, jsMapGet_jsMapSet_self, ← hcL, hget]
      rfl
    obtain ⟨v2, hv2⟩ := collect_mem_bwd (b.addWord w lang)
      ((b.addWord w lang).config.languages.enabled) c
      (jsSetAdd ws (b.normalizeWordM w)) (by rw [henabled]; exact hcode)
      hget2 (jsSetAdd_length_pos ws _)
    obtain ⟨hget3, _, _⟩ := collect_mem_fwd (b.addWord w lang) _ (c, v2) hv2
    have hv2eq : v2 = jsSetAdd ws (b.normalizeWordM w) :=
      Option.some.inj (hget3 ▸ hget2)
    refine ⟨v2, hv2, ?_, hget3⟩
    intro x hx
    rw [hv2eq]
    exact jsSetAdd_mem_of_mem hx _
  · have hget2 : jsMapGet (b.addWord w lang).languageWordlists c
        = some ws := by
      rw [hwls, jsMapGet_jsMapSet_ne _ _ _ _ hcL, hget]
    obtain ⟨v2, hv2⟩ := collect_mem_bwd (b.addWord w lang)
      ((b.addWord w lang).config.languages.enabled) c ws
      (by rw [henabled]; exact hcode) hget2 hlen
    obtain ⟨hget3, _, _⟩ := collect_mem_fwd (b.addWord w lang) _ (c, v2) hv2
    have hv2eq : v2 = ws := Option.some.inj (hget3 ▸ hget2)
    refine ⟨v2, hv2, ?_, hget3⟩
    intro x hx
    rw [hv2eq]
    exact hx

theorem buildTrie_sub_jsSetAdd (b : ProfanityBuster) (g : Option (List Str))
    (x : Str) :
    TrieSub (buildTrieForWords b g)
      (buildTrieForWords b (some (jsSetAdd (g.getD []) x))) := by
  cases g with
  | none =>
    unfold buildTrieForWords jsSetAdd
    simp only [Option.getD_none]
    rw [if_neg (List.not_mem_nil x)]
    simp only [List.nil_append, List.foldl_cons, List.foldl_nil]
    exact trieSub_insertAll _ _
  | some ws =>
    unfold buildTrieForWords jsSetAdd
    simp only [Option.getD_some]
    split
    · exact trieSub_refl _
    · rw [List.foldl_append]
      simp only [List.foldl_cons, List.foldl_nil]
      exact trieSub_insertAll _ _

theorem addWord_trie_entry (b : ProfanityBuster) (w : Str)
    (lang : Option String)
    (halgo : b.config.detection.algorithm.getD .trie = .trie)
    (hwf : ∀ tr, jsMapGet b.languageTries
        (lang.getD b.config.languages.fallback) = some tr →
      tr = buildTrieForWords b (jsMapGet b.languageWordlists
        (lang.getD b.config.languages.fallback)))
    (c : String) (tr : TrieNode)
    (htr : jsMapGet b.languageTries c = some tr) :
    ∃ tr2, jsMapGet (b.addWord w lang).languageTries c = some tr2 ∧
      TrieSub tr tr2 := by
  have htries := addWord_tries b w lang halgo
  by_cases hcL : c = lang.getD b.config.languages.fallback
  · refine ⟨buildTrieForWords b (some (jsSetAdd
      ((jsMapGet b.languageWordlists
        (lang.getD b.config.languages.fallback)).getD [])
      (b.normalizeWordM w))), ?_, ?_⟩
    · rw [htries, hcL, jsMapGet_jsMapSet_self]
    · rw [hwf tr (hcL ▸ htr)]
      exact buildTrie_sub_jsSetAdd b _ _
  · exact ⟨tr, by rw [htries, jsMapGet_jsMapSet_ne _ _ _ _ hcL, htr],
      trieSub_refl tr⟩

/-- C5 amended: under the default `'trie'` algorithm, with language
auto-detection disabled and the stored trie of the target language equal to
the trie built from its stored wordlist, `addWord` never flips the `detect`
verdict from profane to clean: `hasProfanity` is monotone under `addWord`.
(The original claim that every previously reported span survives is refuted
by the counterexample: the longest-terminal rule can replace a span.) -/
theorem c5_addword_preserves_verdict_trie (b : ProfanityBuster) (w : Str)
    (lang : Option String) (t : Str)
    (halgo : b.config.detection.algorithm.getD .trie = .trie)
    (hauto : b.config.languages.autoDetect = false)
    (hwf : ∀ tr, jsMapGet b.languageTries
        (lang.getD b.config.languages.fallback) = some tr →
      tr = buildTrieForWords b (jsMapGet b.languageWordlists
        (lang.getD b.config.languages.fallback)))
    (h : (b.detect t).1.hasProfanity = true) :
    ((b.addWord w lang).detect t).1.hasProfanity = true := by
  have hconf : (b.addWord w lang).config = b.config := addWord_config b w lang
  have hauto2 : (b.addWord w lang).config.languages.autoDetect = false := by
    rw [hconf]; exact hauto
  have halgo2 : (b.addWord w lang).config.detection.algorithm.getD .trie
      = .trie := by rw [hconf]; exact halgo
  rw [detect_result_no_auto b t hauto] at h
  rw [detect_result_no_auto (b.addWord w lang) t hauto2]
  rw [normOptions_congr hconf]
  set tn := normalizeForDetection t b.normOptions with htndef
  set wl := b.collectWordlistsForCodes b.config.languages.enabled with hwldef
  set wl2 := (b.addWord w lang).collectWordlistsForCodes
      ((b.addWord w lang).config.languages.enabled) with hwl2def
  by_cases he : b.exactStage tn wl ≠ []
  · apply fuzzyStage_ne_nil
    apply phraseStage_ne_nil
    apply inflStage_ne_nil
    obtain ⟨⟨c, ws⟩, hpmem, tr, htr, hfa⟩ :=
      (exactStage_ne_nil_iff b tn halgo wl).mp he
    obtain ⟨v, hvmem, hsubw, _⟩ := addWord_wordlist_entry b w lang c ws hpmem
    obtain ⟨tr2, htr2, hsub⟩ := addWord_trie_entry b w lang halgo hwf c tr htr
    apply (exactStage_ne_nil_iff (b.addWord w lang) tn halgo2 wl2).mpr
    refine ⟨(c, v), hvmem, tr2, htr2, ?_⟩
    rw [hconf]
    exact findAllMatches_mono tn _ _ hsub hfa
  · rw [not_not] at he
    rw [he] at h
    by_cases hi : b.inflStage tn wl [] ≠ []
    · have hflag : b.config.detection.enableInflections.getD true = true := by
        by_contra hf
        rw [Bool.not_eq_true] at hf
        exact hi (inflStage_flag_false b tn wl [] hf)
      obtain ⟨⟨c, ws⟩, hpmem, w0, hw0, hocc⟩ := inflStage_empty_extract b tn wl hi
      obtain ⟨v, hvmem, hsubw, _⟩ := addWord_wordlist_entry b w lang c ws hpmem
      apply fuzzyStage_ne_nil
      apply phraseStage_ne_nil
      by_cases he2 : (b.addWord w lang).exactStage tn wl2 ≠ []
      · exact inflStage_ne_nil _ _ _ he2
      · rw [not_not] at he2
        rw [he2]
        apply inflStage_empty_build (b.addWord w lang) tn wl2
          (by rw [hconf]; exact hflag)
        refine ⟨(c, v), hvmem, w0, hsubw w0 hw0, ?_⟩
        rw [hconf]
        rw [findWordOcc_congr b (b.addWord w lang)]
        exact hocc
    · rw [not_not] at hi
      rw [hi] at h
      by_cases hph : b.phraseStage tn [] ≠ []
      · apply fuzzyStage_ne_nil
        by_cases he2 : (b.addWord w lang).exactStage tn wl2 ≠ []
        · exact phraseStage_ne_nil _ _ (inflStage_ne_nil _ _ _ he2)
        · rw [not_not] at he2
          by_cases hi2 : (b.addWord w lang).inflStage tn wl2
              ((b.addWord w lang).exactStage tn wl2) ≠ []
          · exact phraseStage_ne_nil _ _ hi2
          · rw [not_not] at hi2
            rw [hi2]
            rw [phraseStage_congr hconf (addWord_phraseTrie b w lang)
              (addWord_phraseList b w lang)]
            exact hph
      · rw [not_not] at hph
        rw [hph] at h
        obtain ⟨hld, ⟨c, ws⟩, hpmem, hffw⟩ := fuzzyStage_empty_extract b tn wl h
        obtain ⟨w0, hw0, happ⟩ := fuzzyFirstWord_extract b tn ws hffw
        obtain ⟨v, hvmem, hsubw, _⟩ := addWord_wordlist_entry b w lang c ws hpmem
        by_cases he2 : (b.addWord w lang).exactStage tn wl2 ≠ []
        · exact fuzzyStage_ne_nil _ _ _ (phraseStage_ne_nil _ _
            (inflStage_ne_nil _ _ _ he2))
        · rw [not_not] at he2
          by_cases hi2 : (b.addWord w lang).inflStage tn wl2
              ((b.addWord w lang).exactStage tn wl2) ≠ []
          · exact fuzzyStage_ne_nil _ _ _ (phraseStage_ne_nil _ _ hi2)
          · rw [not_not] at hi2
            by_cases hph2 : (b.addWord w lang).phraseStage tn
                ((b.addWord w lang).inflStage tn wl2
                  ((b.addWord w lang).exactStage tn wl2)) ≠ []
            · exact fuzzyStage_ne_nil _ _ _ hph2
            · rw [not_not] at hph2
              rw [hph2]
              apply fuzzyStage_empty_build (b.addWord w lang) tn wl2
                (by rw [hconf]; exact hld)
              refine ⟨(c, v), hvmem, ?_⟩
              rw [fuzzyFirstWord_congr hconf]
              exact fuzzyFirstWord_build b tn v ⟨w0, hsubw w0 hw0, happ⟩

/-- C5, witness for the amended theorem at a concrete detector. -/
theorem c5_addword_preserves_verdict_trie_witness :
    (c5Buster.detect (strL "ab")).1.hasProfanity = true ∧
      ((c5Buster.addWord (strL "abc") none).detect
        (strL "ab")).1.hasProfanity = true := by
  refine ⟨by decide, c5_addword_preserves_verdict_trie c5Buster (strL "abc")
    none (strL "ab") (by decide) (by decide) ?_ (by decide)⟩
  intro tr htr
  have h0 : jsMapGet c5Buster.languageTries
      ((none : Option String).getD c5Buster.config.languages.fallback)
      = some (buildTrieForWords c5Buster (jsMapGet c5Buster.languageWordlists
        ((none : Option String).getD c5Buster.config.languages.fallback))) :=
    rfl
  rw [h0] at htr
  exact (Option.some.inj htr).symm

theorem trieNodeAt_append (s s' : Str) :
    ∀ t : TrieNode, trieNodeAt t (s ++ s')
      = (trieNodeAt t s).bind (fun n => trieNodeAt n s') := by
  induction s with
  | nil => intro t; rfl
  | cons c cs ih =>
    intro t
    rw [show trieNodeAt t (c :: cs ++ s') = (match childGet t.children c with
        | some n => trieNodeAt n (cs ++ s')
        | none => none) from rfl,
      show trieNodeAt t (c :: cs) = (match childGet t.children c with
        | some n => trieNodeAt n cs
        | none => none) from rfl]
    cases childGet t.children c with
    | none => rfl
    | some n => exact ih n

theorem longestTrieSuffix_isSuffix (tr : TrieNode) :
    ∀ s : Str, (longestTrieSuffix tr s).IsSuffix s
      ∧ (trieNodeAt tr (longestTrieSuffix tr s)).isSome = true := by
  intro s
  induction s with
  | nil => exact ⟨List.suffix_rfl, rfl⟩
  | cons c cs ih =>
    unfold longestTrieSuffix
    split
    · rename_i h
      exact ⟨List.suffix_rfl, h⟩
    · exact ⟨ih.1.trans (List.suffix_cons c cs), ih.2⟩

theorem longestTrieSuffix_longest (tr : TrieNode) :
    ∀ (s w : Str), w.IsSuffix s → (trieNodeAt tr w).isSome = true →
      w.length ≤ (longestTrieSuffix tr s).length := by
  intro s
  induction s with
  | nil =>
    intro w hw _
    rw [List.suffix_nil.mp hw]
    exact Nat.le_refl _
  | cons c cs ih =>
    intro w hw hsome
    unfold longestTrieSuffix
    split
    · exact hw.length_le
    · rename_i hno
      rcases List.suffix_cons_iff.mp hw with h | h
      · rw [h] at hsome
        exact absurd hsome (by simp [hno])
      · exact ih w h hsome

theorem suffix_drop_eq {α : Type} {w s : List α} (h : w.IsSuffix s) :
    s.drop (s.length - w.length) = w := by
  obtain ⟨t, ht⟩ := h
  rw [← ht, List.length_append]
  rw [show t.length + w.length - w.length = t.length by omega]
  exact List.drop_left t w

theorem suffix_of_suffix_length_le {α : Type} {w v s : List α}
    (hw : w.IsSuffix s) (hv : v.IsSuffix s) (hlen : w.length ≤ v.length) :
    w.IsSuffix v := by
  have hdw := suffix_drop_eq hw
  have hdv := suffix_drop_eq hv
  have hvs := hv.length_le
  rw [← hdv, ← hdw]
  rw [show s.length - w.length
      = (s.length - v.length) + (v.length - w.length) by omega]
  rw [← List.drop_drop]
  exact List.drop_suffix _ _

theorem trieTerminal_isSome {tr : TrieNode} {s : Str}
    (h : trieTerminal tr s = true) : (trieNodeAt tr s).isSome = true := by
  unfold trieTerminal at h
  cases hn : trieNodeAt tr s with
  | none => rw [hn] at h; cases h
  | some n => rfl

theorem trieCharsOkF_path (alpha : List Char) :
    ∀ (fuel : Nat) (t : TrieNode) (s : Str) (n : TrieNode),
      trieCharsOkF alpha fuel t = true → trieNodeAt t s = some n →
      ∀ x ∈ s, x ∈ alpha := by
  intro fuel
  induction fuel with
  | zero =>
    intro t s n h
    exact absurd h (by simp [trieCharsOkF])
  | succ fuel ih =>
    intro t s n hok hat x hx
    cases s with
    | nil => cases hx
    | cons c cs =>
      rw [show trieNodeAt t (c :: cs) = (match childGet t.children c with
        | some m => trieNodeAt m cs
        | none => none) from rfl] at hat
      cases hcg : childGet t.children c with
      | none => rw [hcg] at hat; cases hat
      | some m =>
        rw [hcg] at hat
        have hmem : (c, m) ∈ t.children := jsMapGet_mem hcg
        have hcm := List.all_eq_true.mp hok (c, m) hmem
        rw [Bool.and_eq_true] at hcm
        rcases List.mem_cons.mp hx with hxc | hxcs
        · rw [hxc]
          exact of_decide_eq_true hcm.1
        · exact ih m cs n hcm.2 hat x hxcs

theorem longestTrieSuffix_no_char {alpha : List Char} {fuel : Nat}
    {tr : TrieNode} (hok : trieCharsOkF alpha fuel tr = true)
    {c : Char} (hc : c ∉ alpha) :
    ∀ s : Str, longestTrieSuffix tr (s ++ [c]) = [] := by
  have hfail : ∀ s : Str, (trieNodeAt tr (s ++ [c])).isSome = true → False := by
    intro s hsome
    rw [Option.isSome_iff_exists] at hsome
    obtain ⟨n, hn⟩ := hsome
    exact hc (trieCharsOkF_path alpha fuel tr (s ++ [c]) n hok hn c
      (List.mem_append_right s (List.mem_singleton.mpr rfl)))
  intro s
  induction s with
  | nil =>
    show longestTrieSuffix tr ([c] : Str) = []
    unfold longestTrieSuffix
    split
    · rename_i h
      exact absurd h (fun h => hfail [] h)
    · rfl
  | cons a s ih =>
    show longestTrieSuffix tr (a :: (s ++ [c])) = []
    unfold longestTrieSuffix
    split
    · rename_i h
      exact absurd h (fun h => hfail (a :: s) h)
    · exact ih

theorem jsMapGet_none_of_keys {β : Type} {m : List (Char × β)}
    {alpha : List Char} (hk : ∀ p ∈ m, p.1 ∈ alpha) {c : Char}
    (hc : c ∉ alpha) : jsMapGet m c = none := by
  induction m with
  | nil => rfl
  | cons p rest ih =>
    rw [show jsMapGet (p :: rest) c
      = if p.1 = c then some p.2 else jsMapGet rest c from rfl]
    rw [if_neg (fun h => hc (by rw [← h]; exact hk p (List.mem_cons_self p rest)))]
    exact ih (fun q hq => hk q (List.mem_cons_of_mem p hq))

theorem acGet_children_alpha {nodes : List AhoNode} {alpha : List Char}
    (hok : acNodesAlphaOk nodes alpha = true) (f : Nat) :
    ∀ p ∈ (acGet nodes f).children, p.1 ∈ alpha := by
  intro p hp
  unfold acGet at hp
  by_cases hf : f < nodes.length
  · rw [List.getD_eq_getElem nodes AhoNode.empty hf] at hp
    have hmem : nodes[f] ∈ nodes := List.getElem_mem hf
    have h1 := List.all_eq_true.mp hok _ hmem
    exact of_decide_eq_true (List.all_eq_true.mp h1 p hp)
  · rw [List.getD_eq_default nodes AhoNode.empty (Nat.le_of_not_lt hf)] at hp
    cases hp

theorem acFailWalk_iter {nodes : List AhoNode} {alpha : List Char}
    (hok : acNodesAlphaOk nodes alpha = true) {c : Char} (hc : c ∉ alpha) :
    ∀ (fuel f : Nat), acFailWalk nodes c fuel f = failIter nodes fuel f := by
  intro fuel
  induction fuel with
  | zero => intro f; rfl
  | succ fuel ih =>
    intro f
    unfold acFailWalk failIter
    rw [jsMapGet_none_of_keys (acGet_children_alpha hok f) hc]
    by_cases hf : f = 0
    · rw [hf]
      rw [if_neg (by simp)]
      rw [if_pos rfl]
    · rw [if_pos (by simp [hf]), if_neg hf]
      exact ih _

theorem failIter_chain_zero {nodes : List AhoNode}
    (hchain : acFailChainOk nodes = true) {u : Nat} (hu : u < nodes.length) :
    failIter nodes nodes.length u = 0 :=
  of_decide_eq_true (List.all_eq_true.mp hchain u (List.mem_range.mpr hu))

theorem acStep_out {nodes : List AhoNode} {alpha : List Char}
    (hok : acNodesAlphaOk nodes alpha = true)
    (hchain : acFailChainOk nodes = true) {c : Char} (hc : c ∉ alpha)
    {st : Nat} (hst : st < nodes.length) : acStep nodes st c = 0 := by
  unfold acStep
  rw [acFailWalk_iter hok hc, failIter_chain_zero hchain hst]
  dsimp only
  rw [jsMapGet_none_of_keys (acGet_children_alpha hok 0) hc]

theorem acEmit_mem (nodes : List AhoNode) (text : Str) (whole : Bool)
    (ui : Bool) (im : List Nat) (i state : Nat) (len : Nat)
    (hlen : len ∈ (acGet nodes state).terminalLengths)
    (hle : len ≤ i + 1)
    (hwcheck : whole = true →
      (((if ui then im.getD (i + 1 - len) 0 else i + 1 - len) = 0 ∨
        ¬ isWordChar (text.getD
          ((if ui then im.getD (i + 1 - len) 0 else i + 1 - len) - 1) ' ')) ∧
       ((if ui then im.getD i 0 else i) + 1 ≥ text.length ∨
        ¬ isWordChar (text.getD
          ((if ui then im.getD i 0 else i) + 1) ' ')))) :
    ({ index := if ui then im.getD (i + 1 - len) 0 else i + 1 - len,
       length := (if ui then im.getD i 0 else i)
         - (if ui then im.getD (i + 1 - len) 0 else i + 1 - len) + 1 }
      : AhoMatch) ∈ acEmit nodes text whole ui im i state := by
  unfold acEmit
  rw [List.mem_filterMap]
  refine ⟨(len : Int), List.mem_flatMap.mpr ⟨len, hlen, List.mem_singleton.mpr rfl⟩, ?_⟩
  dsimp only
  rw [if_neg (show ¬ ((i : Int) - (len : Int) + 1 < 0) by omega)]
  rw [show ((i : Int) - (len : Int) + 1).toNat = i + 1 - len by omega]
  cases whole with
  | false => simp
  | true =>
    obtain ⟨hl, hr⟩ := hwcheck rfl
    simp only [decide_eq_true hl, decide_eq_true hr, Bool.and_self,
      Bool.not_true, Bool.and_false, Bool.false_eq_true, if_false]

theorem suffix_append_right {α : Type} {w v : List α} (x : List α)
    (h : w.IsSuffix v) : (w ++ x).IsSuffix (v ++ x) := by
  obtain ⟨u, hu⟩ := h
  exact ⟨u, by rw [← List.append_assoc, hu]⟩

theorem suffix_snoc_decompose {α : Type} {M s : List α} {c : α}
    (h : M.IsSuffix (s ++ [c])) :
    M = [] ∨ ∃ Mp, M = Mp ++ [c] ∧ Mp.IsSuffix s := by
  cases hM : M with
  | nil => exact Or.inl rfl
  | cons a as =>
    right
    rw [← hM]
    have hMne : M ≠ [] := by rw [hM]; exact List.cons_ne_nil a as
    have hc : ([c] : List α).IsSuffix M := by
      apply suffix_of_suffix_length_le (List.suffix_append s [c]) h
      have := List.length_pos.mpr hMne
      simpa using this
    obtain ⟨Mp, hMp⟩ := hc
    refine ⟨Mp, hMp.symm, ?_⟩
    obtain ⟨t, ht⟩ := h
    rw [← hMp, ← List.append_assoc] at ht
    exact ⟨t, List.append_cancel_right ht⟩

theorem trieNodeAt_prefix_some {tr : TrieNode} {Mp : Str} {c : Char}
    (h : (trieNodeAt tr (Mp ++ [c])).isSome = true) :
    (trieNodeAt tr Mp).isSome = true := by
  rw [trieNodeAt_append] at h
  cases hm : trieNodeAt tr Mp with
  | none => rw [hm] at h; cases h
  | some n => rfl

theorem longestTrieSuffix_idem (tr : TrieNode) (s : Str) (c : Char) :
    longestTrieSuffix tr (longestTrieSuffix tr s ++ [c])
      = longestTrieSuffix tr (s ++ [c]) := by
  have hLs := longestTrieSuffix_isSuffix tr s
  have hA := longestTrieSuffix_isSuffix tr (longestTrieSuffix tr s ++ [c])
  have hB := longestTrieSuffix_isSuffix tr (s ++ [c])
  have hAs : (longestTrieSuffix tr (longestTrieSuffix tr s ++ [c])).IsSuffix
      (s ++ [c]) := hA.1.trans (suffix_append_right [c] hLs.1)
  have h1 : (longestTrieSuffix tr (longestTrieSuffix tr s ++ [c])).length
      ≤ (longestTrieSuffix tr (s ++ [c])).length :=
    longestTrieSuffix_longest tr (s ++ [c]) _ hAs hA.2
  have h2 : (longestTrieSuffix tr (s ++ [c])).length
      ≤ (longestTrieSuffix tr (longestTrieSuffix tr s ++ [c])).length := by
    rcases suffix_snoc_decompose hB.1 with hnil | ⟨Mp, hMp, hMps⟩
    · rw [hnil]
      exact Nat.zero_le _
    · have hMp_some : (trieNodeAt tr Mp).isSome = true := by
        apply trieNodeAt_prefix_some
        rw [← hMp]
        exact hB.2
      have hMpL : Mp.IsSuffix (longestTrieSuffix tr s) :=
        suffix_of_suffix_length_le hMps hLs.1
          (longestTrieSuffix_longest tr s Mp hMps hMp_some)
      have hMsuffix : (longestTrieSuffix tr (s ++ [c])).IsSuffix
          (longestTrieSuffix tr s ++ [c]) := by
        rw [hMp]
        exact suffix_append_right [c] hMpL
      exact longestTrieSuffix_longest tr _ _ hMsuffix hB.2
  have hlen : (longestTrieSuffix tr (longestTrieSuffix tr s ++ [c])).length
      = (longestTrieSuffix tr (s ++ [c])).length := Nat.le_antisymm h1 h2
  exact List.IsSuffix.eq_of_length
    (suffix_of_suffix_length_le hAs hB.1 (Nat.le_of_eq hlen)) hlen

theorem acRunGo_cons (nodes : List AhoNode) (text : Str) (whole ui : Bool)
    (im : List Nat) (c : Char) (rest : List Char) (i st : Nat) :
    acRunGo nodes text whole ui im (c :: rest) i st
      = acEmit nodes text whole ui im i (acStep nodes st c)
        ++ acRunGo nodes text whole ui im rest (i + 1) (acStep nodes st c) := rfl

theorem acRun_complete (tr : TrieNode) (nodes : List AhoNode)
    (alpha : List Char) (pm : List (Nat × Str)) (fuel : Nat)
    (text : Str) (whole ui : Bool) (im : List Nat)
    (h0 : jsMapGet pm 0 = some ([] : Str))
    (hchars : trieCharsOkF alpha fuel tr = true)
    (hstep : ∀ u su, (u, su) ∈ pm → ∀ c ∈ alpha,
      jsMapGet pm (acStep nodes u c)
        = some (longestTrieSuffix tr (su ++ [c])))
    (hterm : ∀ u su, (u, su) ∈ pm → ∀ len, 0 < len → len ≤ su.length →
      trieTerminal tr (su.drop (su.length - len)) = true →
      len ∈ (acGet nodes u).terminalLengths)
    (hbound : ∀ u su, (u, su) ∈ pm → u < nodes.length)
    (hok : acNodesAlphaOk nodes alpha = true)
    (hchain : acFailChainOk nodes = true) :
    ∀ (mid : List Char) (pfx : Str) (st i : Nat),
      i = pfx.length + mid.length →
      jsMapGet pm st = some (longestTrieSuffix tr pfx) →
      ∀ (last : Char) (after : List Char) (w : Str), w ≠ [] →
      w.IsSuffix (pfx ++ mid ++ [last]) → trieTerminal tr w = true →
      (whole = true →
        (((if ui then im.getD (i + 1 - w.length) 0 else i + 1 - w.length) = 0
          ∨ ¬ isWordChar (text.getD
            ((if ui then im.getD (i + 1 - w.length) 0
              else i + 1 - w.length) - 1) ' ')) ∧
         ((if ui then im.getD i 0 else i) + 1 ≥ text.length
          ∨ ¬ isWordChar (text.getD
            ((if ui then im.getD i 0 else i) + 1) ' ')))) →
      ({ index := if ui then im.getD (i + 1 - w.length) 0
            else i + 1 - w.length,
         length := (if ui then im.getD i 0 else i)
           - (if ui then im.getD (i + 1 - w.length) 0
              else i + 1 - w.length) + 1 } : AhoMatch)
        ∈ acRunGo nodes text whole ui im (mid ++ last :: after)
            pfx.length st := by
  intro mid
  induction mid with
  | nil =>
    intro pfx st i hi hst last after w hw hsuf hwterm hcheck
    rw [List.length_nil, Nat.add_zero] at hi
    subst hi
    rw [show ([] : List Char) ++ last :: after = last :: after from rfl]
    rw [acRunGo_cons]
    apply List.mem_append_left
    have hsuf2 : w.IsSuffix (pfx ++ [last]) := by
      have : pfx ++ ([] : List Char) ++ [last] = pfx ++ [last] := by simp
      exact this ▸ hsuf
    have hlast_mem : last ∈ w := by
      have hl : ([last] : Str).IsSuffix w := by
        apply suffix_of_suffix_length_le (List.suffix_append pfx [last]) hsuf2
        have := List.length_pos.mpr hw
        simpa using this
      exact hl.mem (List.mem_singleton.mpr rfl)
    have hwsome : (trieNodeAt tr w).isSome = true := trieTerminal_isSome hwterm
    have hlast_alpha : last ∈ alpha := by
      rw [Option.isSome_iff_exists] at hwsome
      obtain ⟨n, hn⟩ := hwsome
      exact trieCharsOkF_path alpha fuel tr w n hchars hn last hlast_mem
    have hst_mem := jsMapGet_mem hst
    have hstep2 := hstep st (longestTrieSuffix tr pfx) hst_mem last hlast_alpha
    rw [longestTrieSuffix_idem] at hstep2
    have hsu_mem := jsMapGet_mem hstep2
    have hsufsu : w.IsSuffix (longestTrieSuffix tr (pfx ++ [last])) := by
      apply suffix_of_suffix_length_le hsuf2
        (longestTrieSuffix_isSuffix tr (pfx ++ [last])).1
      exact longestTrieSuffix_longest tr (pfx ++ [last]) w hsuf2
        (trieTerminal_isSome hwterm)
    have hlen_le : w.length
        ≤ (longestTrieSuffix tr (pfx ++ [last])).length := hsufsu.length_le
    have hterm2 := hterm (acStep nodes st last)
      (longestTrieSuffix tr (pfx ++ [last])) hsu_mem w.length
      (List.length_pos.mpr hw) hlen_le
      (by rw [suffix_drop_eq hsufsu]; exact hwterm)
    apply acEmit_mem
    · exact hterm2
    · have h1 := hsuf2.length_le
      rw [List.length_append] at h1
      simpa using h1
    · exact hcheck
  | cons c mid' ih =>
    intro pfx st i hi hst last after w hw hsuf hwterm hcheck
    rw [show (c :: mid') ++ last :: after
      = c :: (mid' ++ last :: after) from rfl]
    rw [acRunGo_cons]
    apply List.mem_append_right
    have hlen1 : (pfx ++ [c]).length = pfx.length + 1 := by simp
    have hst2 : jsMapGet pm (acStep nodes st c)
        = some (longestTrieSuffix tr (pfx ++ [c])) := by
      by_cases hca : c ∈ alpha
      · have h3 := hstep st (longestTrieSuffix tr pfx) (jsMapGet_mem hst) c hca
        rw [longestTrieSuffix_idem] at h3
        exact h3
      · rw [acStep_out hok hchain hca
          (hbound st (longestTrieSuffix tr pfx) (jsMapGet_mem hst))]
        rw [longestTrieSuffix_no_char hchars hca pfx]
        exact h0
    have hsuf2 : w.IsSuffix ((pfx ++ [c]) ++ mid' ++ [last]) := by
      have : pfx ++ (c :: mid') ++ [last]
          = (pfx ++ [c]) ++ mid' ++ [last] := by simp
      exact this ▸ hsuf
    have hi2 : i = (pfx ++ [c]).length + mid'.length := by
      rw [hlen1]
      rw [hi]
      simp [Nat.add_assoc, Nat.add_comm, Nat.add_left_comm]
    have := ih (pfx ++ [c]) (acStep nodes st c) i hi2 hst2 last after w hw
      hsuf2 hwterm hcheck
    rw [hlen1] at this
    exact this

theorem compactF_cons_skip {ig : Bool} {seps : List Char} {c : Char}
    (h : (ig && decide (c ∈ seps)) = true) (l : Str) :
    compactF ig seps (c :: l) = compactF ig seps l := by
  unfold compactF
  rw [List.filter_cons_of_neg (by simp [h])]

theorem compactF_cons_keep {ig : Bool} {seps : List Char} {c : Char}
    (h : (ig && decide (c ∈ seps)) = false) (l : Str) :
    compactF ig seps (c :: l) = c :: compactF ig seps l := by
  unfold compactF
  rw [List.filter_cons_of_pos (by simp [h])]

theorem drop_cons_next {text : Str} {j : Nat} {ch : Char} {rest : Str}
    (h : text.drop j = ch :: rest) : text.drop (j + 1) = rest := by
  have h1 : (text.drop j).drop 1 = text.drop (j + 1) := List.drop_drop 1 j text
  rw [h] at h1
  exact h1.symm

theorem getD_of_drop_cons {text : Str} {j : Nat} {ch : Char} {rest : Str}
    (h : text.drop j = ch :: rest) : text.getD j ' ' = ch := by
  have h1 : text[j]? = some ch := by
    have h2 := List.getElem?_drop text j 0
    rw [h, List.getElem?_cons_zero] at h2
    rw [show j + 0 = j from rfl] at h2
    exact h2.symm
  rw [List.getD_eq_getElem?_getD, h1]
  rfl

theorem lt_length_of_drop_cons {text : Str} {j : Nat} {ch : Char}
    {rest : Str} (h : text.drop j = ch :: rest) : j < text.length := by
  by_contra hj
  rw [List.drop_eq_nil_of_le (Nat.le_of_not_lt hj)] at h
  cases h

theorem trieWalk_sound (tr : TrieNode) (text : Str) (whole ig : Bool)
    (seps : List Char) :
    ∀ (rest : Str) (node : TrieNode) (j : Nat) (w0 : Str) (last : Int),
      rest = text.drop j → trieNodeAt tr w0 = some node →
      trieWalk text whole ig seps node j rest last ≠ last →
      ∃ jend : Nat, trieWalk text whole ig seps node j rest last = (jend : Int)
        ∧ j ≤ jend ∧ jend < text.length
        ∧ (ig = true → text.getD jend ' ' ∉ seps)
        ∧ trieTerminal tr (w0 ++ compactF ig seps
            ((text.drop j).take (jend + 1 - j))) = true
        ∧ (whole = true → (jend + 1 ≥ text.length
            ∨ ¬ isWordChar (text.getD (jend + 1) ' '))) := by
  intro rest
  induction rest with
  | nil =>
    intro node j w0 last hdrop hnode hne
    exact absurd rfl hne
  | cons ch rest ih =>
    intro node j w0 last hdrop hnode hne
    have hrest : rest = text.drop (j + 1) := (drop_cons_next hdrop.symm).symm
    have hchj : text.getD j ' ' = ch := getD_of_drop_cons hdrop.symm
    have hjlen : j < text.length := lt_length_of_drop_cons hdrop.symm
    rw [show trieWalk text whole ig seps node j (ch :: rest) last
      = (if ig && ch ∈ seps then
          trieWalk text whole ig seps node (j + 1) rest last
        else
          match childGet node.children ch with
          | none => last
          | some next =>
            trieWalk text whole ig seps next (j + 1) rest
              (if next.isTerminal then
                if whole then
                  if j + 1 < text.length && isWordChar (text.getD (j + 1) ' ')
                  then last
                  else (j : Int)
                else (j : Int)
              else last)) from rfl] at hne ⊢
    by_cases hskip : (ig && decide (ch ∈ seps)) = true
    · rw [if_pos hskip] at hne ⊢
      obtain ⟨jend, h1, h2, h3, h4, h5, h6⟩ := ih node (j + 1) w0 last
        hrest hnode hne
      refine ⟨jend, h1, by omega, h3, h4, ?_, h6⟩
      rw [← hdrop]
      rw [show (ch :: rest).take (jend + 1 - j)
        = ch :: rest.take (jend - j) from by
          rw [show jend + 1 - j = (jend - j) + 1 by omega]; rfl]
      rw [compactF_cons_skip hskip]
      rw [show rest.take (jend - j) = rest.take (jend + 1 - (j + 1)) from by
        rw [show jend + 1 - (j + 1) = jend - j by omega]]
      rw [hrest]
      exact h5
    · rw [if_neg hskip] at hne ⊢
      cases hcg : childGet node.children ch with
      | none =>
        rw [hcg] at hne
        exact absurd rfl hne
      | some next =>
        rw [hcg] at hne
        dsimp only at hne ⊢
        have hnode2 : trieNodeAt tr (w0 ++ [ch]) = some next := by
          rw [trieNodeAt_append, hnode]
          rw [show (some node).bind (fun n => trieNodeAt n [ch])
            = trieNodeAt node [ch] from rfl]
          rw [show trieNodeAt node [ch] = (match childGet node.children ch with
            | some m => trieNodeAt m [] | none => none) from rfl, hcg]
          rfl
        set last2 : Int := (if next.isTerminal then
          if whole then
            if j + 1 < text.length && isWordChar (text.getD (j + 1) ' ')
            then last
            else (j : Int)
          else (j : Int)
        else last) with hlast2
        by_cases hr : trieWalk text whole ig seps next (j + 1) rest last2
            ≠ last2
        · obtain ⟨jend, h1, h2, h3, h4, h5, h6⟩ := ih next (j + 1) (w0 ++ [ch])
            last2 hrest hnode2 hr
          refine ⟨jend, h1, by omega, h3, h4, ?_, h6⟩
          rw [← hdrop]
          rw [show (ch :: rest).take (jend + 1 - j)
            = ch :: rest.take (jend - j) from by
              rw [show jend + 1 - j = (jend - j) + 1 by omega]; rfl]
          rw [compactF_cons_keep (Bool.not_eq_true _ ▸ hskip : _)]
          rw [show rest.take (jend - j) = rest.take (jend + 1 - (j + 1)) from by
            rw [show jend + 1 - (j + 1) = jend - j by omega]]
          rw [hrest]
          rw [List.append_assoc] at h5
          exact h5
        · rw [not_not] at hr
          rw [hr] at hne ⊢
          have hterm : next.isTerminal = true := by
            by_contra hit
            rw [Bool.not_eq_true] at hit
            rw [hlast2, if_neg (by rw [hit]; exact Bool.false_ne_true)] at hne
            exact hne rfl
          have hlast2j : last2 = (j : Int) ∧ (whole = true →
              (j + 1 ≥ text.length ∨ ¬ isWordChar (text.getD (j + 1) ' '))) := by
            cases whole with
            | false =>
              rw [hlast2, if_pos hterm]
              exact ⟨rfl, fun h => absurd h Bool.false_ne_true⟩
            | true =>
              by_cases hcond : (decide (j + 1 < text.length)
                  && isWordChar (text.getD (j + 1) ' ')) = true
              · refine absurd ?_ hne
                rw [hlast2, if_pos hterm,
                  if_pos (show (true : Bool) = true from rfl), if_pos hcond]
              · refine ⟨?_, fun _ => ?_⟩
                · rw [hlast2, if_pos hterm,
                    if_pos (show (true : Bool) = true from rfl), if_neg hcond]
                · rw [Bool.and_eq_true] at hcond
                  push_neg at hcond
                  by_cases hlt : j + 1 < text.length
                  · right
                    exact hcond (decide_eq_true hlt)
                  · left
                    omega
          refine ⟨j, hlast2j.1, Nat.le_refl j, hjlen, ?_, ?_, hlast2j.2⟩
          · intro hig
            rw [hchj]
            intro hmem
            rw [hig] at hskip
            simp [hmem] at hskip
          · rw [← hdrop]
            rw [show j + 1 - j = 1 by omega]
            rw [show (ch :: rest).take 1 = [ch] from rfl]
            rw [compactF_cons_keep (Bool.not_eq_true _ ▸ hskip : _)]
            rw [show compactF ig seps [] = [] from rfl]
            unfold trieTerminal
            rw [hnode2]
            exact hterm

theorem trieScan_sound (tr : TrieNode) (text : Str) (whole ig : Bool)
    (seps : List Char) :
    ∀ (sfx : Str) (s0 : Nat), sfx = text.drop s0 →
      ∀ m ∈ trieScan tr text whole ig seps sfx s0,
      ∃ jend : Nat, m.index ≤ jend ∧ jend < text.length
        ∧ m.length = jend - m.index + 1
        ∧ (ig = true → text.getD m.index ' ' ∉ seps)
        ∧ (ig = true → text.getD jend ' ' ∉ seps)
        ∧ trieTerminal tr (compactF ig seps
            ((text.drop m.index).take (jend + 1 - m.index))) = true
        ∧ (whole = true →
            ((m.index = 0 ∨ ¬ isWordChar (text.getD (m.index - 1) ' '))
              ∧ (jend + 1 ≥ text.length ∨
                ¬ isWordChar (text.getD (jend + 1) ' ')))) := by
  intro sfx
  induction sfx with
  | nil =>
    intro s0 hdrop m hm
    cases hm
  | cons ch rest ih =>
    intro s0 hdrop m hm
    have hrest : rest = text.drop (s0 + 1) := (drop_cons_next hdrop.symm).symm
    have hchj : text.getD s0 ' ' = ch := getD_of_drop_cons hdrop.symm
    rw [show trieScan tr text whole ig seps (ch :: rest) s0
      = (if ig && ch ∈ seps then trieScan tr text whole ig seps rest (s0 + 1)
         else if whole && decide (0 < s0)
             && isWordChar (text.getD (s0 - 1) ' ') then
           trieScan tr text whole ig seps rest (s0 + 1)
         else if trieWalk text whole ig seps tr s0 (ch :: rest) (-1) ≠ -1 then
           { index := s0, length := (trieWalk text whole ig seps tr s0
               (ch :: rest) (-1) - s0 + 1).toNat }
             :: trieScan tr text whole ig seps rest (s0 + 1)
         else trieScan tr text whole ig seps rest (s0 + 1)) from rfl] at hm
    by_cases h1 : (ig && decide (ch ∈ seps)) = true
    · rw [if_pos h1] at hm
      exact ih (s0 + 1) hrest m hm
    · rw [if_neg h1] at hm
      by_cases h2 : (whole && decide (0 < s0)
          && isWordChar (text.getD (s0 - 1) ' ')) = true
      · rw [if_pos h2] at hm
        exact ih (s0 + 1) hrest m hm
      · rw [if_neg h2] at hm
        by_cases h3 : trieWalk text whole ig seps tr s0 (ch :: rest) (-1) ≠ -1
        · rw [if_pos h3] at hm
          rcases List.mem_cons.mp hm with hm | hm
          · obtain ⟨jend, w1, w2, w3, w4, w5, w6⟩ := trieWalk_sound tr text
              whole ig seps (ch :: rest) tr s0 [] (-1) hdrop rfl h3
            rw [List.nil_append] at w5
            subst hm
            refine ⟨jend, w2, w3, ?_, ?_, w4, w5, ?_⟩
            · show (trieWalk text whole ig seps tr s0 (ch :: rest) (-1)
                - s0 + 1).toNat = jend - s0 + 1
              rw [w1]
              omega
            · intro hig hmem
              rw [show TrieMatch.index { index := s0, length :=
                (trieWalk text whole ig seps tr s0 (ch :: rest) (-1)
                  - s0 + 1).toNat } = s0 from rfl] at hmem
              rw [hchj] at hmem
              rw [hig] at h1
              simp [hmem] at h1
            · intro hw
              refine ⟨?_, w6 hw⟩
              rw [hw] at h2
              show s0 = 0 ∨ ¬ isWordChar (text.getD (s0 - 1) ' ') = true
              by_cases hpos : 0 < s0
              · right
                intro hword
                exact h2 (by rw [decide_eq_true hpos, hword]; rfl)
              · left
                omega
          · exact ih (s0 + 1) hrest m hm
        · rw [if_neg h3] at hm
          exact ih (s0 + 1) hrest m hm

theorem acPmStepOk_spec {tr : TrieNode} {nodes : List AhoNode}
    {alpha : List Char} {pm : List (Nat × Str)}
    (h : acPmStepOk tr nodes alpha pm = true) :
    ∀ u su, (u, su) ∈ pm → ∀ c ∈ alpha,
      jsMapGet pm (acStep nodes u c)
        = some (longestTrieSuffix tr (su ++ [c])) := by
  intro u su hmem c hc
  have h1 := List.all_eq_true.mp h (u, su) hmem
  have h2 := List.all_eq_true.mp h1 c hc
  exact of_decide_eq_true h2

theorem acPmTermOk_spec {tr : TrieNode} {nodes : List AhoNode}
    {pm : List (Nat × Str)} (h : acPmTermOk tr nodes pm = true) :
    ∀ u su, (u, su) ∈ pm → ∀ len, 0 < len → len ≤ su.length →
      trieTerminal tr (su.drop (su.length - len)) = true →
      len ∈ (acGet nodes u).terminalLengths := by
  intro u su hmem len hpos hle hterm
  have h1 := List.all_eq_true.mp h (u, su) hmem
  dsimp only at h1
  rw [Bool.and_eq_true] at h1
  have h2 := List.all_eq_true.mp h1.2 len
    (List.mem_range.mpr (by omega))
  rw [Bool.or_eq_true] at h2
  rcases h2 with h2 | h2
  · rw [Bool.not_eq_true'] at h2
    rcases Bool.and_eq_false_iff.mp h2 with h3 | h3
    · rw [decide_eq_false_iff_not] at h3
      omega
    · rw [h3] at hterm
      cases hterm
  · exact of_decide_eq_true h2

theorem acPmBoundOk_spec {nodes : List AhoNode} {pm : List (Nat × Str)}
    (h : acPmBoundOk nodes pm = true) :
    ∀ u su, (u, su) ∈ pm → u < nodes.length := by
  intro u su hmem
  exact of_decide_eq_true (List.all_eq_true.mp h (u, su) hmem)

theorem enum_filter_snd (P : Char → Bool) :
    ∀ (l : Str) (n : Nat),
      ((List.enumFrom n l).filter (fun p => P p.2)).map Prod.snd
        = l.filter P := by
  intro l
  induction l with
  | nil => intro n; rfl
  | cons c t ih =>
    intro n
    rw [List.enumFrom_cons]
    by_cases hc : P c = true
    · rw [List.filter_cons_of_pos (by simpa using hc),
        List.filter_cons_of_pos hc]
      rw [List.map_cons]
      rw [ih (n + 1)]
    · rw [List.filter_cons_of_neg (by simpa using hc),
        List.filter_cons_of_neg (by simpa using hc)]
      exact ih (n + 1)

theorem enum_filter_fst_getD (P : Char → Bool) :
    ∀ (l : Str) (n q : Nat), q < l.length → P (l.getD q ' ') = true →
      (((List.enumFrom n l).filter (fun p => P p.2)).map Prod.fst).getD
        (((l.take q).filter P).length) 0 = n + q := by
  intro l
  induction l with
  | nil =>
    intro n q hq
    cases hq
  | cons c t ih =>
    intro n q hq hP
    rw [List.enumFrom_cons]
    cases q with
    | zero =>
      have hc : P c = true := hP
      rw [List.filter_cons_of_pos (by simpa using hc)]
      rw [show ((c :: t).take 0).filter P = [] from rfl]
      rfl
    | succ q =>
      have hq2 : q < t.length := by simpa using hq
      have hP2 : P (t.getD q ' ') = true := hP
      rw [show (c :: t).take (q + 1) = c :: t.take q from rfl]
      by_cases hc : P c = true
      · rw [List.filter_cons_of_pos (by simpa using hc),
          List.filter_cons_of_pos hc]
        rw [List.map_cons]
        rw [show (c :: (t.take q).filter P).length
          = ((t.take q).filter P).length + 1 from rfl]
        rw [show ((n : Nat) :: ((List.enumFrom (n + 1) t).filter
            (fun p => P p.2)).map Prod.fst).getD
            (((t.take q).filter P).length + 1) 0
          = (((List.enumFrom (n + 1) t).filter
            (fun p => P p.2)).map Prod.fst).getD
            (((t.take q).filter P).length) 0 from rfl]
        rw [ih (n + 1) q hq2 hP2]
        omega
      · rw [List.filter_cons_of_neg (by simpa using hc),
          List.filter_cons_of_neg (by simpa using hc)]
        rw [ih (n + 1) q hq2 hP2]
        omega

theorem compactF_false (seps : List Char) (l : Str) :
    compactF false seps l = l := by
  unfold compactF
  simp

theorem compactF_true_eq_filter (seps : List Char) (l : Str) :
    compactF true seps l = l.filter (fun c => decide (c ∉ seps)) := by
  unfold compactF
  apply List.filter_congr
  intro c _
  by_cases h : c ∈ seps <;> simp [h]

theorem getD_eq_getElem_of_lt {l : Str} {q : Nat} (h : q < l.length) :
    l.getD q ' ' = l[q] := by
  rw [List.getD_eq_getElem?_getD, List.getElem?_eq_getElem h]
  rfl

theorem take_succ_of_lt {l : Str} {q : Nat} (h : q < l.length) :
    l.take (q + 1) = l.take q ++ [l[q]] := by
  rw [List.take_succ, List.getElem?_eq_getElem h]
  rfl

theorem list_decompose_at {l : Str} {q : Nat} (h : q < l.length) :
    l = l.take q ++ l[q] :: l.drop (q + 1) := by
  conv_lhs => rw [← List.take_append_drop q l]
  rw [List.drop_eq_getElem_cons h]

theorem slice_take_suffix (l : Str) (a k : Nat) (ha : a ≤ k) :
    ((l.drop a).take (k - a)).IsSuffix (l.take k) := by
  refine ⟨l.take a, ?_⟩
  rw [← List.take_add]
  rw [show a + (k - a) = k by omega]

theorem slice_split_last {l : Str} {a jend : Nat} (ha : a ≤ jend)
    (hj : jend < l.length) :
    (l.drop a).take (jend + 1 - a)
      = (l.drop a).take (jend - a) ++ [l[jend]] := by
  rw [show jend + 1 - a = (jend - a) + 1 by omega]
  rw [List.take_succ]
  rw [List.getElem?_drop]
  rw [show a + (jend - a) = jend by omega]
  rw [List.getElem?_eq_getElem hj]
  rfl

theorem slice_length {l : Str} {a jend : Nat} (ha : a ≤ jend)
    (hj : jend < l.length) :
    ((l.drop a).take (jend + 1 - a)).length = jend + 1 - a := by
  rw [List.length_take, List.length_drop]
  omega

theorem filter_suffix {P : Char → Bool} {w v : Str} (h : w.IsSuffix v) :
    (w.filter P).IsSuffix (v.filter P) := by
  obtain ⟨t, ht⟩ := h
  exact ⟨t.filter P, by rw [← List.filter_append, ht]⟩

/-- C1 amended: the two back-ends do not produce equal span sets (see the
counterexample); what holds is inclusion.  For every automaton that passes
the decidable simulation check `acSimCheck` against a trie - in particular
the automaton `build` constructs from the same patterns, as the witness
verifies - every match span reported by `Trie.findAllMatches` is also
reported by `AhoCorasick.findAllMatches`, for every text, whole-word flag
and separator set. -/
theorem c1_aho_covers_trie (tr : TrieNode) (ac : AhoCorasick)
    (alpha : List Char) (pm : List (Nat × Str)) (fuel : Nat)
    (hsim : acSimCheck tr ac alpha pm fuel = true)
    (text : Str) (whole : Bool) (seps : List Char) :
    ∀ m ∈ tr.findAllMatches text whole seps,
      ({ index := m.index, length := m.length } : AhoMatch)
        ∈ ac.findAllMatches text whole seps := by
  intro m hm
  unfold acSimCheck at hsim
  rw [Bool.and_eq_true, Bool.and_eq_true, Bool.and_eq_true, Bool.and_eq_true,
    Bool.and_eq_true, Bool.and_eq_true] at hsim
  obtain ⟨⟨⟨⟨⟨⟨hpm0, hchars⟩, hok⟩, hchain⟩, hstepB⟩, htermB⟩, hboundB⟩ := hsim
  have h0 : jsMapGet pm 0 = some ([] : Str) := of_decide_eq_true hpm0
  have hstep := acPmStepOk_spec hstepB
  have hterm := acPmTermOk_spec htermB
  have hbound := acPmBoundOk_spec hboundB
  unfold TrieNode.findAllMatches at hm
  obtain ⟨jend, s1, s2, s3, s4, s5, s6, s7⟩ := trieScan_sound tr text whole
    (decide (seps ≠ [])) seps text 0 (List.drop_zero text).symm m hm
  set a := m.index with ha
  unfold AhoCorasick.findAllMatches
  by_cases hseps : seps ≠ []
  · rw [if_pos hseps]
    dsimp only
    set IM := (text.enum.filter (fun p => decide (p.2 ∉ seps))).map Prod.fst
      with hIM
    have hig : decide (seps ≠ []) = true := decide_eq_true hseps
    rw [hig] at s4 s5
    rw [hig, compactF_true_eq_filter] at s6
    have ha_lt : a < text.length := by omega
    have hPa : (fun c => decide (c ∉ seps)) text[a] = true := by
      show decide (text[a] ∉ seps) = true
      apply decide_eq_true
      rw [← getD_eq_getElem_of_lt ha_lt]
      exact s4 rfl
    have hPj : (fun c => decide (c ∉ seps)) text[jend] = true := by
      show decide (text[jend] ∉ seps) = true
      apply decide_eq_true
      rw [← getD_eq_getElem_of_lt s2]
      exact s5 rfl
    set seg' := (text.drop a).take (jend - a) with hseg'
    set w := ((text.drop a).take (jend + 1 - a)).filter
      (fun c => decide (c ∉ seps)) with hw
    set mid := (text.take jend).filter (fun c => decide (c ∉ seps)) with hmid
    set after2 := (text.drop (jend + 1)).filter
      (fun c => decide (c ∉ seps)) with hafter2
    have hsegsplit : (text.drop a).take (jend + 1 - a)
        = seg' ++ [text[jend]] := slice_split_last s1 s2
    have hwdec : w = seg'.filter (fun c => decide (c ∉ seps))
        ++ [text[jend]] := by
      rw [hw, hsegsplit, List.filter_append,
        @List.filter_cons_of_pos Char (fun c => decide (c ∉ seps)) _ _ hPj]
      rfl
    have hwne : w ≠ [] := by
      rw [hwdec]
      intro hcontra
      rcases List.append_eq_nil.mp hcontra with ⟨_, h2⟩
      cases h2
    have hdec2 : text.filter (fun c => decide (c ∉ seps))
        = mid ++ text[jend] :: after2 := by
      conv_lhs => rw [list_decompose_at s2]
      rw [List.filter_append,
        @List.filter_cons_of_pos Char (fun c => decide (c ∉ seps)) _ _ hPj]
    have hsnd : (text.enum.filter (fun p => decide (p.2 ∉ seps))).map
        Prod.snd = text.filter (fun c => decide (c ∉ seps)) :=
      enum_filter_snd (fun c => decide (c ∉ seps)) text 0
    have htakesplit : text.take jend = text.take a ++ seg' := by
      conv_lhs => rw [show jend = a + (jend - a) by omega, List.take_add]
    have hmidsplit : mid = (text.take a).filter (fun c => decide (c ∉ seps))
        ++ seg'.filter (fun c => decide (c ∉ seps)) := by
      rw [hmid, htakesplit, List.filter_append]
    have hsuf : w.IsSuffix (mid ++ [text[jend]]) := by
      have h1 : ((text.drop a).take (jend + 1 - a)).IsSuffix
          (text.take (jend + 1)) :=
        slice_take_suffix text a (jend + 1) (by omega)
      have h2 := filter_suffix (P := fun c => decide (c ∉ seps)) h1
      rw [take_succ_of_lt s2, List.filter_append,
        @List.filter_cons_of_pos Char (fun c => decide (c ∉ seps)) _ _ hPj]
        at h2
      exact h2
    have hgd_a : IM.getD
        (((text.take a).filter (fun c => decide (c ∉ seps))).length) 0
          = a := by
      have h3 := enum_filter_fst_getD (fun c => decide (c ∉ seps)) text 0 a
        ha_lt (by rw [getD_eq_getElem_of_lt ha_lt]; exact hPa)
      rw [Nat.zero_add] at h3
      exact h3
    have hgd_j : IM.getD mid.length 0 = jend := by
      have h3 := enum_filter_fst_getD (fun c => decide (c ∉ seps)) text 0
        jend s2 (by rw [getD_eq_getElem_of_lt s2]; exact hPj)
      rw [Nat.zero_add] at h3
      exact h3
    have hlen_w : w.length
        = (seg'.filter (fun c => decide (c ∉ seps))).length + 1 := by
      rw [hwdec]
      simp
    have hi_len : mid.length
        = ((text.take a).filter (fun c => decide (c ∉ seps))).length
          + (seg'.filter (fun c => decide (c ∉ seps))).length := by
      rw [hmidsplit]
      simp
    have hidx : mid.length + 1 - w.length
        = ((text.take a).filter (fun c => decide (c ∉ seps))).length := by
      omega
    have happly := acRun_complete tr ac.nodes alpha pm fuel text whole true
      IM h0 hchars hstep hterm hbound hok hchain
      mid [] 0 mid.length (Nat.zero_add mid.length).symm h0 (text[jend])
      after2
      w hwne hsuf s6 (by
        intro hwh
        obtain ⟨hL, hR⟩ := s7 hwh
        refine ⟨?_, ?_⟩
        · show IM.getD (mid.length + 1 - w.length) 0 = 0
            ∨ ¬ isWordChar (text.getD
              (IM.getD (mid.length + 1 - w.length) 0 - 1) ' ') = true
          rw [hidx, hgd_a]
          exact hL
        · show IM.getD mid.length 0 + 1 ≥ text.length
            ∨ ¬ isWordChar (text.getD (IM.getD mid.length 0 + 1) ' ') = true
          rw [hgd_j]
          exact hR)
    rw [← hdec2] at happly
    have hspan : ({ index := m.index, length := m.length } : AhoMatch)
        = { index := if true then IM.getD (mid.length + 1 - w.length) 0
              else mid.length + 1 - w.length,
            length := (if true then IM.getD mid.length 0 else mid.length)
              - (if true then IM.getD (mid.length + 1 - w.length) 0
                 else mid.length + 1 - w.length) + 1 } := by
      show ({ index := m.index, length := m.length } : AhoMatch)
        = { index := IM.getD (mid.length + 1 - w.length) 0,
            length := IM.getD mid.length 0
              - IM.getD (mid.length + 1 - w.length) 0 + 1 }
      rw [hidx, hgd_a, hgd_j]
      rw [s3]
    rw [hspan]
    rw [← hsnd] at happly
    exact happly
  · rw [if_neg hseps]
    have hig : decide (seps ≠ []) = false := decide_eq_false hseps
    rw [hig, compactF_false] at s6
    set seg := (text.drop a).take (jend + 1 - a) with hseg
    have hwlen : seg.length = jend + 1 - a := slice_length s1 s2
    have hwne : seg ≠ [] := by
      apply List.ne_nil_of_length_pos
      rw [hwlen]
      omega
    have hsuf : seg.IsSuffix (text.take jend ++ [text[jend]]) := by
      rw [← take_succ_of_lt s2]
      rw [hseg]
      exact slice_take_suffix text a (jend + 1) (by omega)
    have hieq : jend = ([] : Str).length + (text.take jend).length := by
      simp [List.length_take]
      omega
    have happly := acRun_complete tr ac.nodes alpha pm fuel text whole false
      [] h0 hchars hstep hterm hbound hok hchain
      (text.take jend) [] 0 jend hieq h0 (text[jend]) (text.drop (jend + 1))
      seg hwne hsuf s6 (by
        intro hw
        obtain ⟨hL, hR⟩ := s7 hw
        refine ⟨?_, ?_⟩
        · show jend + 1 - seg.length = 0
            ∨ ¬ isWordChar (text.getD (jend + 1 - seg.length - 1) ' ') = true
          rw [hwlen]
          rw [show jend + 1 - (jend + 1 - a) = a by omega]
          exact hL
        · show jend + 1 ≥ text.length
            ∨ ¬ isWordChar (text.getD (jend + 1) ' ') = true
          exact hR)
    rw [← list_decompose_at s2] at happly
    simp only [Bool.false_eq_true, if_false] at happly
    rw [hwlen] at happly
    rw [show jend + 1 - (jend + 1 - a) = a by omega] at happly
    rw [show jend - a + 1 = m.length from s3.symm] at happly
    exact happly

/-- C1, witness: the automaton built from the patterns a, ab, ba, aba
passes the simulation check, and the trie span (0,2) on "ab" is indeed
also an automaton span. -/
theorem c1_aho_covers_trie_witness :
    acSimCheck c1SimTrie c1SimAuto ['a', 'b'] c1SimPm 4 = true ∧
      (⟨0, 2⟩ : TrieMatch) ∈ c1SimTrie.findAllMatches (strL "ab") false []
      ∧ (⟨0, 2⟩ : AhoMatch)
          ∈ c1SimAuto.findAllMatches (strL "ab") false [] :=
  ⟨by decide, by decide,
    c1_aho_covers_trie c1SimTrie c1SimAuto ['a', 'b'] c1SimPm 4 (by decide)
      (strL "ab") false [] ⟨0, 2⟩ (by decide)⟩
